import Mathlib

/-!
Verification of the OGTool crawl-and-extract pipeline.

This file gives a shallow embedding, in Lean 4, of the algorithmic core of
the repository: the content-type classifier and listing-page test
(src/scraper.py, src/config.py, src/url_processor.py), the URL dispatcher
(src/unified_scraper.py, src/pdf_scraper.py, src/google_drive_handler.py),
the output formatter (src/output_formatter.py), the PDF chunker
(src/pdf_scraper.py), the Markdown normalisation pipeline (src/scraper.py),
the pagination prober (src/url_processor.py) and the crawl scheduler
(src/scrapers/web.py).  Network transport, HTML parsing (BeautifulSoup),
browser rendering (playwright) and the markdownify library are external
collaborators; they enter the embedding as oracle parameters.  Python
strings are modelled by Lean String (lists of characters); Python sets of
URLs are modelled by lists whose insertions are guarded by membership
tests, exactly as the source guards them.
-/

/-! ## Python string primitives -/

/-- Does the first list start the second one? -/
def charListStarts : List Char → List Char → Bool
  | [], _ => true
  | _ :: _, [] => false
  | c :: cs, d :: ds => c = d && charListStarts cs ds

/-- Does the first list occur contiguously inside the second one? -/
def charListInfix (needle : List Char) : List Char → Bool
  | [] => needle.isEmpty
  | d :: ds => charListStarts needle (d :: ds) || charListInfix needle ds

/-- Python's substring test: needle in haystack. -/
def pyIn (needle haystack : String) : Bool :=
  charListInfix needle.data haystack.data

/-- ASCII lower-casing of one character, as Python's str.lower does on ASCII. -/
def pyToLower (c : Char) : Char :=
  if 'A' ≤ c ∧ c ≤ 'Z' then Char.ofNat (c.toNat + 32) else c

/-- Python's str.lower (restricted to ASCII case mapping). -/
def pyLower (s : String) : String :=
  String.mk (s.data.map pyToLower)

/-- The characters Python's str.strip removes by default. -/
def pyIsSpace (c : Char) : Bool :=
  c = ' ' || c = '\t' || c = '\n' || c = '\r' || c = '\x0b' || c = '\x0c'

/-- Python's str.strip() on the character list: drop leading and trailing
whitespace. -/
def stripL (l : List Char) : List Char :=
  ((l.dropWhile pyIsSpace).reverse.dropWhile pyIsSpace).reverse

/-- Python's str.strip(): drop leading and trailing whitespace. -/
def pyStrip (s : String) : String :=
  String.mk (stripL s.data)

/-! ## Content-type classifier (src/scraper.py WebScraper._determine_content_type,
     table from src/config.py CONTENT_TYPE_PATTERNS) -/

/-- CONTENT_TYPE_PATTERNS from src/config.py, in declared (insertion) order. -/
def CONTENT_TYPE_PATTERNS : List (String × List String) :=
  [("blog", ["blog", "post", "article"]),
   ("podcast_transcript", ["podcast", "transcript"]),
   ("linkedin_post", ["linkedin.com"]),
   ("reddit_comment", ["reddit.com"]),
   ("book", ["book"]),
   ("call_transcript", ["call", "transcript"]),
   ("other", [])]

/-- The iteration inside WebScraper._determine_content_type: walk the table
in order, skip the catch-all "other" row, return the first category one of
whose patterns occurs in the lowered URL or lowered title. -/
def classifyLoop (urlL titleL : String) : List (String × List String) → String
  | [] => "other"
  | (ct, pats) :: rest =>
    if ct = "other" then classifyLoop urlL titleL rest
    else if pats.any (fun p => pyIn p urlL || pyIn p titleL) then ct
    else classifyLoop urlL titleL rest

/-- WebScraper._determine_content_type from src/scraper.py: classify by URL
and extracted title. -/
def web_determine_content_type (url title : String) : String :=
  classifyLoop (pyLower url) (pyLower title) CONTENT_TYPE_PATTERNS

/-- First-match-wins reading of the classifier contract, written from the
spec: the first category (excluding "other") having some pattern that is a
substring of the lower-cased URL or title; "other" when none matches. -/
def specFirstMatchingCategory (url title : String) : String :=
  match CONTENT_TYPE_PATTERNS.find? (fun row =>
      decide (row.1 ≠ "other") &&
      row.2.any (fun p => pyIn p (pyLower url) || pyIn p (pyLower title))) with
  | some row => row.1
  | none => "other"

/-! ## Listing-page test and frontier expander entry
     (src/url_processor.py URLProcessor) -/

/-- The fixed listing-page substrings of URLProcessor._is_listing_page. -/
def listing_patterns : List String :=
  ["/blog", "/posts", "/articles", "/topics", "/learn",
   "/category", "/tag", "/archive", "/search"]

/-- URLProcessor._is_listing_page: some listing pattern occurs in the
lower-cased URL. -/
def is_listing_page (url : String) : Bool :=
  listing_patterns.any (fun p => pyIn p (pyLower url))

/-- URLProcessor.process_url.  The listing branch performs network link
extraction (external); it is abstracted by the oracle extractListing. -/
def process_url (extractListing : String → List String) (url : String) :
    List String :=
  if is_listing_page url then extractListing url else [url]

/-! ## PDF-URL test and dispatcher
     (src/pdf_scraper.py PDFScraper.is_pdf_url,
      src/google_drive_handler.py GoogleDriveHandler.is_google_drive_url,
      src/unified_scraper.py UnifiedScraper.scrape_url) -/

/-- PDFScraper.is_pdf_url from src/pdf_scraper.py. -/
def is_pdf_url (url : String) : Bool :=
  if (pyLower url).endsWith ".pdf" then true
  else if pyIn "/pdf" (pyLower url) || pyIn "pdf" (pyLower url) then true
  else if pyIn "drive.google.com" (pyLower url) &&
          (pyIn "/file/" (pyLower url) || pyIn "/folders/" (pyLower url)) then true
  else false

/-- GoogleDriveHandler.is_google_drive_url from src/google_drive_handler.py. -/
def is_google_drive_url (url : String) : Bool :=
  pyIn "drive.google.com" (pyLower url)

/-- The three pipelines UnifiedScraper.scrape_url can route a URL to. -/
inductive Pipeline where
  | drive : Pipeline
  | pdf : Pipeline
  | web : Pipeline
deriving DecidableEq

/-- The routing decision order of UnifiedScraper.scrape_url: Google-Drive
check, then PDF check, then the web pipeline. -/
def route_url (url : String) : Pipeline :=
  if is_google_drive_url url then Pipeline.drive
  else if is_pdf_url url then Pipeline.pdf
  else Pipeline.web

/-! ## Output formatter (src/output_formatter.py OutputFormatter) -/

/-- MIN_CONTENT_LENGTH from src/config.py. -/
def MIN_CONTENT_LENGTH : Nat := 50

/-- A candidate record as consumed by OutputFormatter (a Python dict; a
missing key reads as the empty string through dict.get). -/
structure RawItem where
  title : String
  content : String
  content_type : String
  source_url : String
  author : String
  user_id : String
deriving DecidableEq

/-- The content_type_mapping dict of OutputFormatter._map_content_type,
in insertion order. -/
def content_type_mapping : List (String × String) :=
  [("blog", "blog"), ("pdf", "book"), ("article", "blog"), ("post", "blog"),
   ("linkedin", "linkedin_post"), ("reddit", "reddit_comment"),
   ("podcast", "podcast_transcript"), ("call", "call_transcript"),
   ("transcript", "call_transcript"), ("book", "book"),
   ("document", "book"), ("other", "other")]

/-- OutputFormatter._map_content_type: exact dict lookup, then first
partial (substring) match in insertion order, else "other". -/
def map_content_type (ct : String) : String :=
  match content_type_mapping.find? (fun kv => kv.1 = ct) with
  | some kv => kv.2
  | none =>
    match content_type_mapping.find? (fun kv => pyIn kv.1 (pyLower ct)) with
    | some kv => kv.2
    | none => "other"

/-- OutputFormatter._is_valid_item: non-blank title, non-blank content,
content at least MIN_CONTENT_LENGTH characters. -/
def is_valid_item (item : RawItem) : Bool :=
  if pyStrip item.title = "" then false
  else if pyStrip item.content = "" then false
  else if item.content.length < MIN_CONTENT_LENGTH then false
  else true

/-- OutputFormatter._format_item: rebuild the record with the mapped
content type, then validate; an invalid record yields none. -/
def format_item (item : RawItem) : Option RawItem :=
  let fi : RawItem :=
    { title := item.title, content := item.content,
      content_type := map_content_type item.content_type,
      source_url := item.source_url, author := item.author,
      user_id := item.user_id }
  if is_valid_item fi then some fi else none

/-- The output object built by OutputFormatter.format_output. -/
structure FormattedOutput where
  team_id : String
  items : List RawItem
deriving DecidableEq

/-- OutputFormatter.format_output: keep exactly the records that
_format_item accepts. -/
def format_output (team_id : String) (items : List RawItem) :
    FormattedOutput :=
  { team_id := team_id, items := items.filterMap format_item }

/-! ## Pagination probing (src/url_processor.py URLProcessor._handle_pagination
     and URLProcessor._try_pagination_patterns)

The HEAD existence check and the per-page link extraction are network
calls; they are abstracted by the oracles urlExists and extractUrls. -/

/-- The six candidate pagination URLs tried for a page number, in the order
_try_pagination_patterns builds them. -/
def pagination_candidates (base_url : String) (page : Nat) : List String :=
  [base_url ++ "?page=" ++ toString page,
   base_url ++ "?p=" ++ toString page,
   base_url ++ "/page/" ++ toString page,
   base_url ++ "/p/" ++ toString page,
   base_url ++ "?pg=" ++ toString page,
   base_url ++ "?pagination=" ++ toString page]

/-- URLProcessor._try_pagination_patterns: keep the candidates whose
existence check succeeds. -/
def try_pagination_patterns (urlExists : String → Bool) (base_url : String)
    (page : Nat) : List String :=
  (pagination_candidates base_url page).filter urlExists

/-- The inner for-loop of _handle_pagination: extract links from every
existing candidate of one page number and accumulate them. -/
def page_gather (urlExists : String → Bool)
    (extractUrls : String → List String) (base_url : String) (page : Nat) :
    List String :=
  (try_pagination_patterns urlExists base_url page).foldl
    (fun u pu => u ++ extractUrls pu) []

/-- The while-loop of URLProcessor._handle_pagination.  The fuel argument
counts the page numbers still allowed (the loop runs while
page ≤ max_pages, so fuel = max_pages - page + 1); urls is the accumulated
set of pagination-discovered URLs (a list with membership-guarded use, as
only membership is consulted); probed records the page numbers whose
candidates were extracted.  The loop stops when no candidate for the
current page exists, or when the accumulated urls minus existing_urls is
empty, or when the page numbers run out. -/
def handle_pagination_loop (urlExists : String → Bool)
    (extractUrls : String → List String) (base_url : String)
    (existing_urls : List String) :
    Nat → Nat → List String → List Nat → List String × List Nat
  | 0, _page, urls, probed => (urls, probed)
  | fuel + 1, page, urls, probed =>
    if try_pagination_patterns urlExists base_url page = [] then (urls, probed)
    else
      let urls' := urls ++ page_gather urlExists extractUrls base_url page
      if urls'.all (fun u => decide (u ∈ existing_urls)) then
        (urls', probed ++ [page])
      else
        handle_pagination_loop urlExists extractUrls base_url existing_urls
          fuel (page + 1) urls' (probed ++ [page])

/-- URLProcessor._handle_pagination: probe pages starting at 1. -/
def handle_pagination (urlExists : String → Bool)
    (extractUrls : String → List String) (base_url : String)
    (existing_urls : List String) (max_pages : Nat) :
    List String × List Nat :=
  handle_pagination_loop urlExists extractUrls base_url existing_urls
    max_pages 1 [] []

/-- The union of the per-page gathers of pages 1..p, recomputed without
threading loop state. -/
def cumulative_gather (urlExists : String → Bool)
    (extractUrls : String → List String) (base_url : String) :
    Nat → List String
  | 0 => []
  | p + 1 =>
    cumulative_gather urlExists extractUrls base_url p ++
      page_gather urlExists extractUrls base_url (p + 1)

/-- The amended probing contract, written from the amended claim: page p is
probed, and probing then stops exactly when no candidate for p exists
(p unprobed), or when the whole accumulated gather of pages 1..p lies
inside the pre-existing set, or when max_pages is exhausted. -/
def spec_probed_pages_go (urlExists : String → Bool)
    (extractUrls : String → List String) (base_url : String)
    (existing_urls : List String) : Nat → Nat → List Nat
  | 0, _page => []
  | fuel + 1, page =>
    if try_pagination_patterns urlExists base_url page = [] then []
    else if (cumulative_gather urlExists extractUrls base_url page).all
        (fun u => decide (u ∈ existing_urls)) then [page]
    else
      page :: spec_probed_pages_go urlExists extractUrls base_url
        existing_urls fuel (page + 1)

/-- Entry point of the amended probing contract. -/
def spec_probed_pages (urlExists : String → Bool)
    (extractUrls : String → List String) (base_url : String)
    (existing_urls : List String) (max_pages : Nat) : List Nat :=
  spec_probed_pages_go urlExists extractUrls base_url existing_urls
    max_pages 1

/-- Existence oracle for the C5 counterexample: exactly the query-style
candidates of pages 1, 2 and 3 exist. -/
def c5Exists (u : String) : Bool :=
  u = "b?page=1" || u = "b?page=2" || u = "b?page=3"

/-- Extraction oracle for the C5 counterexample: page 1 yields one new URL,
pages 2 and 3 yield nothing. -/
def c5Extract (u : String) : List String :=
  if u = "b?page=1" then ["n"] else []

/-! ## PDF chunker (src/pdf_scraper.py PDFScraper._chunk_text) -/

/-- The characters after which the sentence-splitting regex of _chunk_text
may cut: the lookbehind class of re.split((?<=[.!?])\s+, text). -/
def sentenceEnd (c : Char) : Bool :=
  c = '.' || c = '!' || c = '?'

/-- One left-to-right pass of re.split((?<=[.!?])\s+, text): a whitespace
run beginning right after ., ! or ? is a separator and is consumed whole;
inSep says whether the scan is inside such a run, prev is the character
just before the current position, acc the current segment (reversed), done
the finished segments (reversed). -/
def splitSentencesGo : List Char → Bool → Option Char → List Char →
    List String → List String
  | [], inSep, _prev, acc, done =>
    ((if inSep then "" else String.mk acc.reverse) :: done).reverse
  | c :: rest, false, prev, acc, done =>
    if pyIsSpace c && (match prev with | some p => sentenceEnd p | none => false)
    then splitSentencesGo rest true none [] (String.mk acc.reverse :: done)
    else splitSentencesGo rest false (some c) (c :: acc) done
  | c :: rest, true, _prev, _acc, done =>
    if pyIsSpace c then splitSentencesGo rest true none [] done
    else splitSentencesGo rest false (some c) [c] done

/-- The sentence list _chunk_text works on. -/
def splitSentences (s : String) : List String :=
  splitSentencesGo s.data false none [] []

/-- The inner overlap loop of _chunk_text: walk the earlier sentences
backwards, prepending each that still fits in chunk_overlap, stopping at
the first that does not. -/
def overlap_fold (chunk_overlap : Nat) : List String → String → String
  | [], acc => acc
  | p :: rest, acc =>
    if acc.length + p.length ≤ chunk_overlap then
      overlap_fold chunk_overlap rest (p ++ " " ++ acc)
    else acc

/-- The overlap text seeded before sentence s: built from the sentences
strictly before the first occurrence of s in the full sentence list
(Python's sentences[:sentences.index(sentence)], walked in reverse). -/
def overlap_text_for (S : List String) (chunk_overlap : Nat) (s : String) :
    String :=
  overlap_fold chunk_overlap ((S.takeWhile (fun t => decide (t ≠ s))).reverse) ""

/-- The greedy sentence-packing loop of _chunk_text.  S is the full
sentence list (consulted by the overlap step), the explicit list the
sentences still to pack; returns the closed chunks and the open chunk. -/
def pack_chunks (S : List String) (chunk_size chunk_overlap : Nat) :
    List String → List String → String → List String × String
  | [], chunks, current => (chunks, current)
  | s :: rest, chunks, current =>
    if chunk_size < current.length + s.length ∧ current ≠ "" then
      pack_chunks S chunk_size chunk_overlap rest (chunks ++ [pyStrip current])
        (if 0 < chunk_overlap then overlap_text_for S chunk_overlap s ++ s
         else s)
    else
      pack_chunks S chunk_size chunk_overlap rest chunks
        (if current = "" then s else current ++ " " ++ s)

/-- The full packing pass of _chunk_text on a text: close chunks over the
whole sentence list, starting from no chunks and an empty open chunk. -/
def pack_pass (chunk_size chunk_overlap : Nat) (text : String) :
    List String × String :=
  pack_chunks (splitSentences text) chunk_size chunk_overlap
    (splitSentences text) [] ""

/-- The chunk list before the small-chunk merge: the closed chunks plus
the stripped open chunk when it is non-blank. -/
def packed_chunks (chunk_size chunk_overlap : Nat) (text : String) :
    List String :=
  if pyStrip (pack_pass chunk_size chunk_overlap text).2 ≠ "" then
    (pack_pass chunk_size chunk_overlap text).1 ++
      [pyStrip (pack_pass chunk_size chunk_overlap text).2]
  else (pack_pass chunk_size chunk_overlap text).1

/-- The final loop of _chunk_text: keep chunks of length at least 100,
merge a shorter chunk into the previously kept one, drop it when nothing
was kept yet.  The kept chunks are accumulated in reverse. -/
def mergeSmallGo (accRev : List String) : List String → List String
  | [] => accRev.reverse
  | c :: rest =>
    if 100 ≤ c.length then mergeSmallGo (c :: accRev) rest
    else
      match accRev with
      | [] => mergeSmallGo [] rest
      | last :: accTail => mergeSmallGo ((last ++ " " ++ c) :: accTail) rest

/-- PDFScraper._chunk_text from src/pdf_scraper.py. -/
def chunk_text (chunk_size chunk_overlap : Nat) (text : String) :
    List String :=
  if text = "" then []
  else mergeSmallGo [] (packed_chunks chunk_size chunk_overlap text)

/-- A 101-character sentence of one repeated letter, for the C6 inputs. -/
def c6Sentence (c : Char) : String :=
  String.mk (List.replicate 100 c) ++ "."

/-- C6 counterexample input: two long sentences. -/
def c6Text : String :=
  c6Sentence 'a' ++ " " ++ c6Sentence 'b'

/-! ## Markdown normaliser (src/scraper.py WebScraper._clean_content and
     WebScraper._improve_markdown_formatting)

Each re.sub of the source is modelled by a character-list function with the
exact leftmost, greedy, non-overlapping semantics of the Python regex on
this pattern.  The markdownify library (only reached when the input
contains both < and >) is an external collaborator and enters as an oracle
parameter. -/

/-- Replacement text of re.sub(\n\s*\n\s*\n, ...): a maximal whitespace
run containing at least three newlines is rewritten from its first to its
last newline into exactly two newlines (a match of this pattern starts at
the first newline of the run and, by greediness, ends at its last). -/
def flushRunBlank (run : List Char) : List Char :=
  if 3 ≤ run.count '\n' then
    run.takeWhile (fun c => decide (c ≠ '\n')) ++ '\n' :: '\n' ::
      (run.reverse.takeWhile (fun c => decide (c ≠ '\n'))).reverse
  else run

/-- Scanner for re.sub(\n\s*\n\s*\n, two newlines, s): group maximal
whitespace runs (run is the pending one) and flush each through
flushRunBlank. -/
def blankGo (run out : List Char) : List Char → List Char
  | [] => out ++ flushRunBlank run
  | c :: rest =>
    if pyIsSpace c then blankGo (run ++ [c]) out rest
    else blankGo [] (out ++ flushRunBlank run ++ [c]) rest

/-- re.sub( +, one space, s): collapse runs of space characters. -/
def collapseGo (prevSpace : Bool) : List Char → List Char
  | [] => []
  | c :: rest =>
    if c = ' ' then
      if prevSpace then collapseGo true rest
      else ' ' :: collapseGo true rest
    else c :: collapseGo false rest

/-- Replacement for a pending newline run under re.sub(\n\x7b3,\x7d, ...):
three or more newlines become two. -/
def flushNl (n : Nat) : List Char :=
  if 3 ≤ n then ['\n', '\n'] else List.replicate n '\n'

/-- Scanner for re.sub(\n\x7b3,\x7d, two newlines, s): run counts the
pending consecutive newlines. -/
def nl3Go (run : Nat) : List Char → List Char
  | [] => flushNl run
  | c :: rest =>
    if c = '\n' then nl3Go (run + 1) rest
    else flushNl run ++ c :: nl3Go 0 rest

/-- The greedy split after the marker of a heading or list match: the
regex \s+[^\n]+ takes the longest nonempty whitespace prefix of cs that is
followed by a non-newline character; k counts down the candidate prefix
lengths from the maximal whitespace run. -/
def findSplitLen (cs : List Char) : Nat → Option Nat
  | 0 => none
  | k + 1 =>
    match cs.get? (k + 1) with
    | some c => if c ≠ '\n' then some (k + 1) else findSplitLen cs k
    | none => findSplitLen cs k

/-- On success, the characters consumed by \s+[^\n]+ from cs and the
remaining characters. -/
def greedyBodySplit (cs : List Char) : Option (List Char × List Char) :=
  match findSplitLen cs (cs.takeWhile pyIsSpace).length with
  | none => none
  | some k =>
    some (cs.take k ++ (cs.drop k).takeWhile (fun c => decide (c ≠ '\n')),
      ((cs.drop k).drop
        (((cs.drop k).takeWhile (fun c => decide (c ≠ '\n')))).length))

/-- Scanner for the heading rule of _improve_markdown_formatting:
re.sub((\n#+\s+[^\n]+), newline newline match newline, s).  The fuel only
bounds the recursion; it is initialised above the input length, and on
exhaustion the remaining input is copied unchanged. -/
def headingSubGo : Nat → List Char → List Char
  | 0, l => l
  | _fuel + 1, [] => []
  | fuel + 1, c :: rest =>
    if c = '\n' then
      if rest.takeWhile (fun d => decide (d = '#')) = [] then
        c :: headingSubGo fuel rest
      else
        match greedyBodySplit
            (rest.drop (rest.takeWhile (fun d => decide (d = '#'))).length) with
        | some (consumed, after) =>
          '\n' :: '\n' :: '\n' ::
            (rest.takeWhile (fun d => decide (d = '#')) ++ consumed ++
              '\n' :: headingSubGo fuel after)
        | none => c :: headingSubGo fuel rest
    else c :: headingSubGo fuel rest

/-- The list-bullet characters of the list rule. -/
def isListMarker (c : Char) : Bool :=
  c = '-' || c = '*' || c = '+'

/-- Scanner for the list rule of _improve_markdown_formatting:
re.sub((\n[-*+]\s+[^\n]+), newline match, s). -/
def listSubGo : Nat → List Char → List Char
  | 0, l => l
  | _fuel + 1, [] => []
  | fuel + 1, c :: rest =>
    if c = '\n' then
      match rest with
      | m :: rest2 =>
        if isListMarker m then
          match greedyBodySplit rest2 with
          | some (consumed, after) =>
            '\n' :: '\n' :: m :: (consumed ++ listSubGo fuel after)
          | none => c :: listSubGo fuel rest
        else c :: listSubGo fuel rest
      | [] => c :: listSubGo fuel rest
    else c :: listSubGo fuel rest

/-- The characters the paragraph rule forbids at a line start. -/
def isParaExcluded (c : Char) : Bool :=
  c = '\n' || c = '#' || c = '-' || c = '*' || c = '+'

/-- Scanner for the paragraph rule of _improve_markdown_formatting:
re.sub((\n\n[^\n#...][^\n]*\n[^\n#...][^\n]*), match newline, s).
A failed match advances the scan by one character. -/
def paraSubGo : Nat → List Char → List Char
  | 0, l => l
  | _fuel + 1, [] => []
  | fuel + 1, c :: rest =>
    if c = '\n' then
      match rest with
      | cb :: rest2 =>
        if cb = '\n' then
          match rest2 with
          | c1 :: rest3 =>
            if isParaExcluded c1 then c :: paraSubGo fuel rest
            else
              match rest3.drop
                  (rest3.takeWhile (fun d => decide (d ≠ '\n'))).length with
              | cnl :: c2 :: rest4 =>
                if cnl = '\n' ∧ isParaExcluded c2 = false then
                  '\n' :: '\n' :: c1 ::
                    (rest3.takeWhile (fun d => decide (d ≠ '\n')) ++ '\n' :: c2 ::
                      (rest4.takeWhile (fun d => decide (d ≠ '\n')) ++ '\n' ::
                        paraSubGo fuel
                          (rest4.drop
                            (rest4.takeWhile
                              (fun d => decide (d ≠ '\n'))).length)))
                else c :: paraSubGo fuel rest
              | _ => c :: paraSubGo fuel rest
          | [] => c :: paraSubGo fuel rest
        else c :: paraSubGo fuel rest
      | [] => c :: paraSubGo fuel rest
    else c :: paraSubGo fuel rest

/-- re.sub(\n+ at end, two newlines, s): a nonempty trailing newline run
becomes exactly two newlines. -/
def trailingL (l : List Char) : List Char :=
  if l.reverse.takeWhile (fun c => decide (c = '\n')) = [] then l
  else (l.reverse.dropWhile (fun c => decide (c = '\n'))).reverse ++ ['\n', '\n']

/-- WebScraper._improve_markdown_formatting: heading rule, list rule,
paragraph rule, trailing-newline rule, in source order. -/
def improve_markdown_formatting_L (l : List Char) : List Char :=
  trailingL
    (paraSubGo
      ((listSubGo
        ((headingSubGo (l.length + 1) l).length + 1)
        (headingSubGo (l.length + 1) l)).length + 1)
      (listSubGo
        ((headingSubGo (l.length + 1) l).length + 1)
        (headingSubGo (l.length + 1) l)))

/-- The whitespace clean-up and formatting pipeline of
WebScraper._clean_content, applied after the HTML branch decision:
blank-run collapse, space collapse, newline-run collapse,
_improve_markdown_formatting, final strip. -/
def clean_content_L (l : List Char) : List Char :=
  stripL (improve_markdown_formatting_L (nl3Go 0 (collapseGo false (blankGo [] [] l))))

/-- WebScraper._clean_content.  An input containing both < and > goes
through the external markdownify converter first (oracle parameter);
anything else is treated as already-plain text. -/
def clean_content (markdownify : String → String) (content : String) :
    String :=
  if content = "" then ""
  else if pyIn "<" content && pyIn ">" content then
    String.mk (clean_content_L (markdownify content).data)
  else String.mk (clean_content_L content.data)

/-! ## Theorems for C7, C8, C9, C10 -/

/-- C8: the classifier sends https://x.com/podcast/ep1-transcript with an
empty title to podcast_transcript, and in general returns the first
category (in declared table order, skipping "other") having some pattern
that occurs in the lower-cased URL or title, with "other" only when no
pattern matches. -/
theorem classifier_first_match_and_podcast_scenario :
    web_determine_content_type "https://x.com/podcast/ep1-transcript" "" =
      "podcast_transcript" ∧
    ∀ url title,
      web_determine_content_type url title = specFirstMatchingCategory url title := by
  constructor
  · decide
  · intro url title
    unfold web_determine_content_type specFirstMatchingCategory
    generalize CONTENT_TYPE_PATTERNS = rows
    induction rows with
    | nil => simp [classifyLoop]
    | cons row rest ih =>
      obtain ⟨ct, pats⟩ := row
      by_cases hother : ct = "other"
      · subst hother
        simp [classifyLoop, List.find?, ih]
      · by_cases hmatch :
          pats.any (fun p => pyIn p (pyLower url) || pyIn p (pyLower title)) = true
        · simp [classifyLoop, hother, hmatch, List.find?]
        · simp [classifyLoop, hother, hmatch, List.find?, ih]

/-- C9: a URL in which none of the fixed listing substrings occurs is
returned unchanged as a singleton by the frontier expander entry point. -/
theorem process_url_non_listing_singleton
    (extractListing : String → List String) (url : String)
    (h : ∀ p ∈ listing_patterns, ¬ pyIn p (pyLower url) = true) :
    process_url extractListing url = [url] := by
  have hl : is_listing_page url = false := by
    unfold is_listing_page
    rw [List.any_eq_false]
    intro p hp
    exact h p hp
  unfold process_url
  rw [hl]
  simp

/-- Witness for C9 at a concrete non-listing URL. -/
theorem process_url_non_listing_singleton_witness :
    process_url (fun _ => []) "https://example.com/items/one" =
      ["https://example.com/items/one"] :=
  process_url_non_listing_singleton (fun _ => [])
    "https://example.com/items/one" (by decide)

/-- C10: any non-Google-Drive URL whose lower-cased text contains "pdf"
anywhere passes the PDF-URL test and is routed to the PDF pipeline. -/
theorem pdf_substring_routes_to_pdf_pipeline (url : String)
    (hdrive : is_google_drive_url url = false)
    (hpdf : pyIn "pdf" (pyLower url) = true) :
    is_pdf_url url = true ∧ route_url url = Pipeline.pdf := by
  have hp : is_pdf_url url = true := by
    unfold is_pdf_url
    rw [hpdf]
    simp
  refine ⟨hp, ?_⟩
  unfold route_url
  rw [hdrive, hp]
  simp

/-- Witness for C10: "pdf" occurs only inside the domain name, yet the URL
is routed to the PDF pipeline. -/
theorem pdf_substring_routes_to_pdf_pipeline_witness :
    is_pdf_url "https://pdfhost.example.com/articles/one" = true ∧
    route_url "https://pdfhost.example.com/articles/one" = Pipeline.pdf :=
  pdf_substring_routes_to_pdf_pipeline
    "https://pdfhost.example.com/articles/one" (by decide) (by decide)

/-- C7: a candidate record with content shorter than MIN_CONTENT_LENGTH, or
with blank title or blank content, is silently excluded by the output
formatter, whatever its other fields. -/
theorem short_or_blank_record_excluded (item : RawItem)
    (h : item.content.length < MIN_CONTENT_LENGTH ∨
         pyStrip item.title = "" ∨ pyStrip item.content = "") :
    format_item item = none ∧
    ∀ team_id items,
      (format_output team_id (items ++ [item])).items =
        (format_output team_id items).items := by
  have hnone : format_item item = none := by
    unfold format_item is_valid_item
    rcases h with hshort | htitle | hcontent
    · by_cases ht : pyStrip item.title = ""
      · simp [ht]
      · by_cases hc : pyStrip item.content = ""
        · simp [ht, hc]
        · simp [ht, hc, hshort]
    · simp [htitle]
    · by_cases ht : pyStrip item.title = ""
      · simp [ht]
      · simp [ht, hcontent]
  refine ⟨hnone, ?_⟩
  intro team_id items
  unfold format_output
  simp [hnone]

/-- Witness for C7 at a concrete too-short record. -/
theorem short_or_blank_record_excluded_witness :
    format_item
      { title := "A title", content := "too short",
        content_type := "blog", source_url := "https://e.com/a",
        author := "", user_id := "u1" } = none :=
  (short_or_blank_record_excluded _ (Or.inl (by decide))).1

/-! ## Theorems for C5 -/

/-- C5 counterexample: with pages 1..3 existing, page 1 contributing one
new URL and page 2 contributing nothing, probing still reaches page 3,
although the claim says it stops as soon as a probed page (here page 2)
contributes no URL beyond those already known. -/
theorem pagination_continues_after_unproductive_page :
    (handle_pagination c5Exists c5Extract "b" [] 3).2 = [1, 2, 3] ∧
    page_gather c5Exists c5Extract "b" 2 = [] := by
  decide

/-- The probed-page trace of the while-loop agrees with the amended
contract computed by per-page recomputation, provided the loop's
accumulated set is the cumulative gather of the pages before the current
one. -/
theorem handle_pagination_loop_eq_spec_go (e : String → Bool)
    (x : String → List String) (b : String) (ex : List String) :
    ∀ fuel page probed,
      (handle_pagination_loop e x b ex fuel (page + 1)
          (cumulative_gather e x b page) probed).2 =
        probed ++ spec_probed_pages_go e x b ex fuel (page + 1) := by
  intro fuel
  induction fuel with
  | zero =>
    intro page probed
    simp [handle_pagination_loop, spec_probed_pages_go]
  | succ n ih =>
    intro page probed
    by_cases hpats : try_pagination_patterns e b (page + 1) = []
    · simp [handle_pagination_loop, spec_probed_pages_go, hpats]
    · have hcum : cumulative_gather e x b (page + 1) =
        cumulative_gather e x b page ++ page_gather e x b (page + 1) := rfl
      by_cases hall : ((cumulative_gather e x b (page + 1)).all
          (fun u => decide (u ∈ ex))) = true
      · simp only [handle_pagination_loop, spec_probed_pages_go, hpats,
          if_false, ← hcum, hall, if_true]
      · simp only [handle_pagination_loop, spec_probed_pages_go, hpats,
          if_false, ← hcum, hall, Bool.false_eq_true]
        rw [ih (page + 1) (probed ++ [page + 1])]
        simp

/-- C5 amended: probing stops at the first page for which no pagination
candidate exists, or at the first page after which the whole accumulated
set of pagination-gathered URLs lies inside the pre-existing discovered
set, or at max_pages — once some probed page has contributed a new URL,
an individual unproductive page no longer stops probing. -/
theorem pagination_probes_match_amended_contract (e : String → Bool)
    (x : String → List String) (b : String) (ex : List String)
    (max_pages : Nat) :
    (handle_pagination e x b ex max_pages).2 =
      spec_probed_pages e x b ex max_pages := by
  have h := handle_pagination_loop_eq_spec_go e x b ex max_pages 0 []
  simpa [handle_pagination, spec_probed_pages, cumulative_gather] using h

/-! ## Theorems for C6 -/

/-- C6 counterexample: with chunk_size 10 and chunk_overlap 2, a text of
two 101-character sentences is chunked into two chunks of length 101, so
the first (non-last) chunk exceeds chunk_size + chunk_overlap = 12. -/
theorem pdf_chunk_size_bound_violated :
    (chunk_text 10 2 c6Text).map String.length = [101, 101] ∧
    ((chunk_text 10 2 c6Text).dropLast.all
      (fun c => decide (c.length ≤ 10 + 2))) = false := by
  decide

/-- Stripping never lengthens a string. -/
theorem pyStrip_length_le (s : String) : (pyStrip s).length ≤ s.length := by
  unfold pyStrip stripL
  show (((s.data.dropWhile pyIsSpace).reverse.dropWhile pyIsSpace).reverse).length ≤ s.data.length
  calc (((s.data.dropWhile pyIsSpace).reverse.dropWhile pyIsSpace).reverse).length
      = ((s.data.dropWhile pyIsSpace).reverse.dropWhile pyIsSpace).length :=
        List.length_reverse _
    _ ≤ (s.data.dropWhile pyIsSpace).reverse.length :=
        (List.dropWhile_suffix _).sublist.length_le
    _ = (s.data.dropWhile pyIsSpace).length := List.length_reverse _
    _ ≤ s.data.length := (List.dropWhile_suffix _).sublist.length_le

/-- The overlap loop keeps its accumulator within chunk_overlap + 1
characters (the +1 is the trailing space glued on at the last addition). -/
theorem overlap_fold_length_le (chunk_overlap : Nat) :
    ∀ l acc, acc.length ≤ chunk_overlap + 1 →
      (overlap_fold chunk_overlap l acc).length ≤ chunk_overlap + 1 := by
  intro l
  induction l with
  | nil => intro acc h; simpa [overlap_fold] using h
  | cons p rest ih =>
    intro acc h
    unfold overlap_fold
    by_cases hfit : acc.length + p.length ≤ chunk_overlap
    · rw [if_pos hfit]
      apply ih
      have hsp : (" " : String).length = 1 := rfl
      simp only [String.length_append]
      omega
    · rw [if_neg hfit]
      exact h

/-- The overlap text never exceeds chunk_overlap + 1 characters. -/
theorem overlap_text_for_length_le (S : List String) (chunk_overlap : Nat)
    (s : String) :
    (overlap_text_for S chunk_overlap s).length ≤ chunk_overlap + 1 := by
  unfold overlap_text_for
  apply overlap_fold_length_le
  simp

/-- Packing invariant: when every remaining sentence fits in chunk_size,
every closed chunk, and the open chunk, stay within
chunk_size + chunk_overlap + 1 characters. -/
theorem pack_chunks_length_le (S : List String)
    (chunk_size chunk_overlap : Nat) :
    ∀ remaining chunks current,
      (∀ s ∈ remaining, s.length ≤ chunk_size) →
      (∀ c ∈ chunks, c.length ≤ chunk_size + chunk_overlap + 1) →
      current.length ≤ chunk_size + chunk_overlap + 1 →
      (∀ c ∈ (pack_chunks S chunk_size chunk_overlap remaining chunks
          current).1, c.length ≤ chunk_size + chunk_overlap + 1) := by
  intro remaining
  induction remaining with
  | nil =>
    intro chunks current _hrem hchunks _hcur
    simpa [pack_chunks] using hchunks
  | cons s rest ih =>
    intro chunks current hrem hchunks hcur
    have hs : s.length ≤ chunk_size := hrem s (List.mem_cons_self s rest)
    have hrest : ∀ t ∈ rest, t.length ≤ chunk_size := fun t ht =>
      hrem t (List.mem_cons_of_mem s ht)
    unfold pack_chunks
    by_cases hclose : chunk_size < current.length + s.length ∧ current ≠ ""
    · rw [if_pos hclose]
      apply ih _ _ hrest
      · intro c hc
        rcases List.mem_append.1 hc with hc | hc
        · exact hchunks c hc
        · rcases List.mem_singleton.1 hc with rfl
          exact le_trans (pyStrip_length_le current) hcur
      · by_cases hov : 0 < chunk_overlap
        · rw [if_pos hov]
          have h1 := overlap_text_for_length_le S chunk_overlap s
          simp only [String.length_append]
          omega
        · rw [if_neg hov]
          omega
    · rw [if_neg hclose]
      apply ih _ _ hrest hchunks
      by_cases hemp : current = ""
      · rw [if_pos hemp]
        omega
      · rw [if_neg hemp]
        have hgrow : current.length + s.length ≤ chunk_size := by
          rcases not_and_or.1 hclose with h | h
          · omega
          · exact absurd (not_not.1 h) hemp
        have hsp : (" " : String).length = 1 := rfl
        simp only [String.length_append]
        omega

/-- Every chunk of the pre-merge list except the last stays within
chunk_size + chunk_overlap + 1 characters, when every sentence fits in
chunk_size. -/
theorem packed_chunks_dropLast_length_le (chunk_size chunk_overlap : Nat)
    (text : String)
    (hsent : ∀ s ∈ splitSentences text, s.length ≤ chunk_size) :
    ∀ c ∈ (packed_chunks chunk_size chunk_overlap text).dropLast,
      c.length ≤ chunk_size + chunk_overlap + 1 := by
  intro c hc
  unfold packed_chunks at hc
  have hall : ∀ c ∈ (pack_pass chunk_size chunk_overlap text).1,
      c.length ≤ chunk_size + chunk_overlap + 1 := by
    unfold pack_pass
    apply pack_chunks_length_le _ _ _ _ _ _ hsent
    · intro c hc
      simp at hc
    · have : ("" : String).length = 0 := rfl
      omega
  by_cases hopen : pyStrip (pack_pass chunk_size chunk_overlap text).2 ≠ ""
  · rw [if_pos hopen] at hc
    rw [List.dropLast_concat] at hc
    exact hall c hc
  · rw [if_neg hopen] at hc
    exact hall c ((List.dropLast_sublist _).subset hc)

/-- Folding the merge loop over chunks that are all long enough just
appends them to the kept list. -/
theorem mergeSmallGo_all_big (m : List String) :
    ∀ accRev rest, (∀ c ∈ m, 100 ≤ c.length) →
      mergeSmallGo accRev (m ++ rest) =
        mergeSmallGo (m.reverse ++ accRev) rest := by
  induction m with
  | nil => intro accRev rest _h; simp
  | cons c m ih =>
    intro accRev rest h
    have hc : 100 ≤ c.length := h c (List.mem_cons_self c m)
    have hm : ∀ t ∈ m, 100 ≤ t.length := fun t ht =>
      h t (List.mem_cons_of_mem c ht)
    simp only [List.cons_append, mergeSmallGo, List.append_eq]
    rw [if_pos hc, ih (c :: accRev) rest hm]
    simp

/-- When only the last pre-merge chunk can be short, every non-last merged
chunk is one of the non-last pre-merge chunks. -/
theorem mergeSmall_dropLast_subset (l : List String)
    (h : ∀ c ∈ l.dropLast, 100 ≤ c.length) :
    ∀ c ∈ (mergeSmallGo [] l).dropLast, c ∈ l.dropLast := by
  rcases List.eq_nil_or_concat l with rfl | ⟨l₀, x, rfl⟩
  · intro c hc
    simp [mergeSmallGo] at hc
  · simp only [List.concat_eq_append] at h ⊢
    have hl₀ : ∀ c ∈ l₀, 100 ≤ c.length := by
      intro c hc
      apply h
      rw [List.dropLast_concat]
      exact hc
    rw [mergeSmallGo_all_big l₀ [] [x] hl₀]
    intro c hc
    rw [List.dropLast_concat]
    by_cases hx : 100 ≤ x.length
    · have hme : mergeSmallGo (l₀.reverse ++ []) [x] = l₀ ++ [x] := by
        unfold mergeSmallGo
        rw [if_pos hx]
        simp [mergeSmallGo]
      rw [hme, List.dropLast_concat] at hc
      exact hc
    · rcases hrev : l₀.reverse with _ | ⟨last, accTail⟩
      · have hme : mergeSmallGo (l₀.reverse ++ []) [x] = [] := by
          rw [hrev]
          unfold mergeSmallGo
          rw [if_neg hx]
          simp [mergeSmallGo]
        rw [hme] at hc
        simp at hc
      · have hme : mergeSmallGo (l₀.reverse ++ []) [x] =
            accTail.reverse ++ [last ++ " " ++ x] := by
          rw [hrev]
          unfold mergeSmallGo
          rw [if_neg hx]
          simp [mergeSmallGo]
        rw [hme, List.dropLast_concat] at hc
        have hsplit : l₀ = accTail.reverse ++ [last] := by
          have h2 := congrArg List.reverse hrev
          simpa using h2
        rw [hsplit]
        exact List.mem_append_left _ hc

/-- C6 amended: provided every sentence of the cleaned text fits within
chunk_size characters and every pre-merge chunk except the last has at
least the minimum length 100 (so the small-chunk merge can only touch the
final chunk), every chunk except possibly the last has length at most
chunk_size + chunk_overlap + 1. -/
theorem pdf_chunk_length_bounded_amended (chunk_size chunk_overlap : Nat)
    (text : String)
    (hsent : ∀ s ∈ splitSentences text, s.length ≤ chunk_size)
    (hbig : ∀ c ∈ (packed_chunks chunk_size chunk_overlap text).dropLast,
      100 ≤ c.length) :
    ∀ c ∈ (chunk_text chunk_size chunk_overlap text).dropLast,
      c.length ≤ chunk_size + chunk_overlap + 1 := by
  intro c hc
  unfold chunk_text at hc
  by_cases htext : text = ""
  · rw [if_pos htext] at hc
    simp at hc
  · rw [if_neg htext] at hc
    have hmem := mergeSmall_dropLast_subset _ hbig c hc
    exact packed_chunks_dropLast_length_le chunk_size chunk_overlap
      text hsent c hmem

/-- A 110-character sentence of one repeated letter, for the C6 witness. -/
def w6Sentence (c : Char) : String :=
  String.mk (List.replicate 109 c) ++ "."

/-- C6 witness input: three medium sentences, chunked with chunk_size 150
and chunk_overlap 30. -/
def w6Text : String :=
  w6Sentence 'a' ++ " " ++ w6Sentence 'b' ++ " " ++ w6Sentence 'c'

set_option maxRecDepth 10000

/-- Witness for the amended C6 bound at a concrete text. -/
theorem pdf_chunk_length_bounded_amended_witness :
    (∀ s ∈ splitSentences w6Text, s.length ≤ 150) ∧
    (∀ c ∈ (packed_chunks 150 30 w6Text).dropLast, 100 ≤ c.length) ∧
    (∀ c ∈ (chunk_text 150 30 w6Text).dropLast, c.length ≤ 150 + 30 + 1) :=
  ⟨by decide, by decide,
    pdf_chunk_length_bounded_amended 150 30 w6Text (by decide) (by decide)⟩

/-! ## Theorems for C4 -/

/-- C4 counterexample: a plain-text input (no angle brackets, so the
external markdownify converter is never consulted) on which the
normalisation is not idempotent: the heading rule of
_improve_markdown_formatting inserts additional blank lines around the
heading on every application. -/
theorem markdown_normalizer_not_idempotent :
    clean_content (fun s => s) (clean_content (fun s => s) "a\n# H\nb") ≠
      clean_content (fun s => s) "a\n# H\nb" := by
  decide

/-- A whitespace run without newlines is left alone by the blank-run rule. -/
theorem flushRunBlank_of_no_nl (run : List Char) (h : '\n' ∉ run) :
    flushRunBlank run = run := by
  unfold flushRunBlank
  have h0 : run.count '\n' = 0 := List.count_eq_zero.mpr h
  rw [if_neg (by omega)]

/-- The blank-run collapse is the identity on newline-free text. -/
theorem blankGo_of_no_nl :
    ∀ l run out, '\n' ∉ run → '\n' ∉ l →
      blankGo run out l = out ++ run ++ l := by
  intro l
  induction l with
  | nil =>
    intro run out h1 _h2
    simp [blankGo, flushRunBlank_of_no_nl run h1]
  | cons c rest ih =>
    intro run out h1 h2
    have hc : ¬ c = '\n' := fun he => h2 (by rw [he]; exact List.mem_cons_self _ _)
    have hr : '\n' ∉ rest := fun hm => h2 (List.mem_cons_of_mem c hm)
    have hrc : '\n' ∉ run ++ [c] := by
      intro hm
      rcases List.mem_append.1 hm with hm | hm
      · exact h1 hm
      · rw [List.mem_singleton] at hm
        exact hc hm.symm
    unfold blankGo
    by_cases hws : pyIsSpace c = true
    · rw [if_pos hws, ih (run ++ [c]) out hrc hr]
      simp
    · rw [if_neg hws, ih [] (out ++ flushRunBlank run ++ [c]) (by simp) hr,
        flushRunBlank_of_no_nl run h1]
      simp

/-- Every character of the space-collapsed text comes from the input. -/
theorem collapseGo_mem : ∀ l flag c, c ∈ collapseGo flag l → c ∈ l := by
  intro l
  induction l with
  | nil => intro flag c hc; simp [collapseGo] at hc
  | cons a rest ih =>
    intro flag c hc
    unfold collapseGo at hc
    by_cases ha : a = ' '
    · rw [if_pos ha] at hc
      cases flag with
      | true =>
        rw [if_pos rfl] at hc
        exact List.mem_cons_of_mem a (ih true c hc)
      | false =>
        rw [if_neg (by simp)] at hc
        rcases List.mem_cons.1 hc with rfl | hc
        · rw [ha]
          exact List.mem_cons_self _ _
        · exact List.mem_cons_of_mem a (ih true c hc)
    · rw [if_neg ha] at hc
      rcases List.mem_cons.1 hc with rfl | hc
      · exact List.mem_cons_self _ _
      · exact List.mem_cons_of_mem a (ih false c hc)

/-- The newline-run collapse is the identity on newline-free text. -/
theorem nl3Go_of_no_nl : ∀ l, '\n' ∉ l → nl3Go 0 l = l := by
  intro l
  induction l with
  | nil => intro _h; simp [nl3Go, flushNl]
  | cons c rest ih =>
    intro h
    have hc : ¬ c = '\n' := fun he => h (by rw [he]; exact List.mem_cons_self _ _)
    have hr : '\n' ∉ rest := fun hm => h (List.mem_cons_of_mem c hm)
    unfold nl3Go
    rw [if_neg hc, ih hr]
    simp [flushNl]

/-- The heading rule is the identity on newline-free text. -/
theorem headingSubGo_of_no_nl : ∀ l fuel, '\n' ∉ l → headingSubGo fuel l = l := by
  intro l
  induction l with
  | nil => intro fuel _h; cases fuel <;> rfl
  | cons c rest ih =>
    intro fuel h
    have hc : ¬ c = '\n' := fun he => h (by rw [he]; exact List.mem_cons_self _ _)
    have hr : '\n' ∉ rest := fun hm => h (List.mem_cons_of_mem c hm)
    cases fuel with
    | zero => rfl
    | succ n =>
      unfold headingSubGo
      rw [if_neg hc, ih n hr]

/-- The list rule is the identity on newline-free text. -/
theorem listSubGo_of_no_nl : ∀ l fuel, '\n' ∉ l → listSubGo fuel l = l := by
  intro l
  induction l with
  | nil => intro fuel _h; cases fuel <;> rfl
  | cons c rest ih =>
    intro fuel h
    have hc : ¬ c = '\n' := fun he => h (by rw [he]; exact List.mem_cons_self _ _)
    have hr : '\n' ∉ rest := fun hm => h (List.mem_cons_of_mem c hm)
    cases fuel with
    | zero => rfl
    | succ n =>
      unfold listSubGo
      rw [if_neg hc, ih n hr]

/-- The paragraph rule is the identity on newline-free text. -/
theorem paraSubGo_of_no_nl : ∀ l fuel, '\n' ∉ l → paraSubGo fuel l = l := by
  intro l
  induction l with
  | nil => intro fuel _h; cases fuel <;> rfl
  | cons c rest ih =>
    intro fuel h
    have hc : ¬ c = '\n' := fun he => h (by rw [he]; exact List.mem_cons_self _ _)
    have hr : '\n' ∉ rest := fun hm => h (List.mem_cons_of_mem c hm)
    cases fuel with
    | zero => rfl
    | succ n =>
      unfold paraSubGo
      rw [if_neg hc, ih n hr]

/-- The trailing-newline rule is the identity on newline-free text. -/
theorem trailingL_of_no_nl (l : List Char) (h : '\n' ∉ l) : trailingL l = l := by
  unfold trailingL
  rw [if_pos]
  cases hrev : l.reverse with
  | nil => simp
  | cons c t =>
    have hc : ¬ c = '\n' := by
      intro he
      apply h
      rw [← he]
      exact List.mem_reverse.1 (by rw [hrev]; exact List.mem_cons_self c t)
    rw [List.takeWhile_cons]
    simp [hc]

/-- The stripped list sits contiguously inside the original. -/
theorem stripL_decompose (l : List Char) :
    ∃ pre suf, pre ++ stripL l ++ suf = l := by
  obtain ⟨u, hu⟩ := (List.dropWhile_suffix pyIsSpace :
    List.IsSuffix (l.dropWhile pyIsSpace) l)
  obtain ⟨v, hv⟩ := (List.dropWhile_suffix pyIsSpace :
    List.IsSuffix ((l.dropWhile pyIsSpace).reverse.dropWhile pyIsSpace)
      (l.dropWhile pyIsSpace).reverse)
  refine ⟨u, v.reverse, ?_⟩
  have hd : l.dropWhile pyIsSpace =
      ((l.dropWhile pyIsSpace).reverse.dropWhile pyIsSpace).reverse ++
        v.reverse := by
    have h2 := congrArg List.reverse hv
    simpa using h2.symm
  unfold stripL
  rw [List.append_assoc, ← hd]
  exact hu

/-- Every character of the stripped list comes from the original. -/
theorem stripL_mem (l : List Char) (c : Char) (hc : c ∈ stripL l) : c ∈ l := by
  obtain ⟨pre, suf, h⟩ := stripL_decompose l
  rw [← h, List.append_assoc]
  exact List.mem_append_right pre (List.mem_append_left suf hc)

/-- The head surviving dropWhile does not satisfy the dropped predicate. -/
theorem head_dropWhile_not {α : Type} (p : α → Bool) :
    ∀ (l : List α) (c : α), (l.dropWhile p).head? = some c → p c = false := by
  intro l
  induction l with
  | nil => intro c hc; simp [List.dropWhile] at hc
  | cons a t ih =>
    intro c hc
    rw [List.dropWhile_cons] at hc
    by_cases hp : p a = true
    · rw [if_pos hp] at hc
      exact ih c hc
    · rw [if_neg hp] at hc
      simp only [List.head?_cons, Option.some.injEq] at hc
      rw [← hc]
      revert hp
      cases p a <;> simp

/-- A list whose head fails the predicate is untouched by dropWhile. -/
theorem dropWhile_eq_self_of_head {α : Type} (p : α → Bool) (l : List α)
    (h : ∀ c, l.head? = some c → p c = false) : l.dropWhile p = l := by
  cases l with
  | nil => rfl
  | cons a t =>
    rw [List.dropWhile_cons, if_neg]
    rw [h a rfl]
    simp

/-- A stripped list does not start with whitespace. -/
theorem stripL_head_not (l : List Char) (c : Char)
    (hc : (stripL l).head? = some c) : pyIsSpace c = false := by
  obtain ⟨v, hv⟩ := (List.dropWhile_suffix pyIsSpace :
    List.IsSuffix ((l.dropWhile pyIsSpace).reverse.dropWhile pyIsSpace)
      (l.dropWhile pyIsSpace).reverse)
  have hd : l.dropWhile pyIsSpace = stripL l ++ v.reverse := by
    have h2 := congrArg List.reverse hv
    unfold stripL
    simpa using h2.symm
  cases hsl : stripL l with
  | nil => rw [hsl] at hc; simp at hc
  | cons a t =>
    rw [hsl] at hc
    simp only [List.head?_cons, Option.some.injEq] at hc
    have hda : (l.dropWhile pyIsSpace).head? = some a := by
      rw [hd, hsl]
      simp
    have := head_dropWhile_not pyIsSpace l a hda
    rw [← hc]
    exact this

/-- A stripped list does not end with whitespace. -/
theorem stripL_reverse_head_not (l : List Char) (c : Char)
    (hc : (stripL l).reverse.head? = some c) : pyIsSpace c = false := by
  unfold stripL at hc
  rw [List.reverse_reverse] at hc
  exact head_dropWhile_not pyIsSpace _ c hc

/-- Stripping is idempotent. -/
theorem stripL_idem (l : List Char) : stripL (stripL l) = stripL l := by
  have h1 : (stripL l).dropWhile pyIsSpace = stripL l :=
    dropWhile_eq_self_of_head _ _ (fun c hc => stripL_head_not l c hc)
  have h2 : (stripL l).reverse.dropWhile pyIsSpace = (stripL l).reverse :=
    dropWhile_eq_self_of_head _ _ (fun c hc => stripL_reverse_head_not l c hc)
  show (((stripL l).dropWhile pyIsSpace).reverse.dropWhile pyIsSpace).reverse =
    stripL l
  rw [h1, h2, List.reverse_reverse]

/-- No two adjacent spaces: the shape the space-collapse rule produces. -/
def noTwoSpaces (a b : Char) : Prop := ¬(a = ' ' ∧ b = ' ')

/-- The space collapse emits no two adjacent spaces, and only starts with a
space when its pending-space flag was off. -/
theorem collapseGo_chain : ∀ l flag,
    List.Chain' noTwoSpaces (collapseGo flag l) ∧
    ((collapseGo flag l).head? = some ' ' → flag = false) := by
  intro l
  induction l with
  | nil =>
    intro flag
    constructor
    · simp [collapseGo]
    · intro h; simp [collapseGo] at h
  | cons a rest ih =>
    intro flag
    unfold collapseGo
    by_cases ha : a = ' '
    · rw [if_pos ha]
      cases flag with
      | true =>
        rw [if_pos rfl]
        exact ⟨(ih true).1, (ih true).2⟩
      | false =>
        rw [if_neg (by simp)]
        constructor
        · rw [List.chain'_cons']
          refine ⟨?_, (ih true).1⟩
          intro b hb hab
          rcases hab with ⟨_, hb2⟩
          have hb' : (collapseGo true rest).head? = some ' ' := by
            rw [← hb2]
            exact Option.mem_def.1 hb
          exact absurd ((ih true).2 hb') (by simp)
        · intro _h; rfl
    · rw [if_neg ha]
      constructor
      · rw [List.chain'_cons']
        refine ⟨?_, (ih false).1⟩
        intro b _hb hab
        exact ha hab.1
      · intro h
        simp only [List.head?_cons, Option.some.injEq] at h
        exact absurd h ha

/-- The space collapse is the identity on text with no two adjacent spaces
(with the pending-space flag off, or the head not a space). -/
theorem collapseGo_eq_self : ∀ l flag,
    List.Chain' noTwoSpaces l → (flag = true → l.head? ≠ some ' ') →
    collapseGo flag l = l := by
  intro l
  induction l with
  | nil => intro flag _h1 _h2; cases flag <;> rfl
  | cons a rest ih =>
    intro flag hchain hhead
    have hcc := List.chain'_cons'.1 hchain
    unfold collapseGo
    by_cases ha : a = ' '
    · cases flag with
      | true =>
        exact absurd (show (a :: rest).head? = some ' ' by rw [ha]; rfl)
          (hhead rfl)
      | false =>
        rw [if_pos ha, if_neg (by simp), ha]
        congr 1
        apply ih true hcc.2
        intro _hf hr
        have hR := hcc.1 ' ' (by rw [Option.mem_def]; exact hr)
        exact hR ⟨ha, rfl⟩
    · rw [if_neg ha]
      congr 1
      apply ih false hcc.2
      intro hf
      exact absurd hf (by simp)

/-- Stripping preserves the no-two-adjacent-spaces shape. -/
theorem stripL_chain (l : List Char) (h : List.Chain' noTwoSpaces l) :
    List.Chain' noTwoSpaces (stripL l) := by
  obtain ⟨pre, suf, hdec⟩ := stripL_decompose l
  exact List.Chain'.infix h ⟨pre, suf, hdec⟩

/-- Single-character substring search is membership. -/
theorem charListInfix_single (c : Char) :
    ∀ l, charListInfix [c] l = true ↔ c ∈ l := by
  intro l
  induction l with
  | nil => simp [charListInfix]
  | cons d ds ih =>
    simp [charListInfix, charListStarts, ih, List.mem_cons]

/-- The Python test for an opening angle bracket is membership of <. -/
theorem pyIn_lt_iff (s : String) : pyIn "<" s = true ↔ '<' ∈ s.data :=
  charListInfix_single '<' s.data

/-- The Python test for a closing angle bracket is membership of >. -/
theorem pyIn_gt_iff (s : String) : pyIn ">" s = true ↔ '>' ∈ s.data :=
  charListInfix_single '>' s.data

/-- On newline-free input the whole normalisation pipeline reduces to
space collapsing followed by stripping. -/
theorem clean_content_L_of_no_nl (l : List Char) (h : '\n' ∉ l) :
    clean_content_L l = stripL (collapseGo false l) := by
  unfold clean_content_L improve_markdown_formatting_L
  rw [blankGo_of_no_nl l [] [] (by simp) h]
  simp only [List.nil_append]
  have hz : '\n' ∉ collapseGo false l := fun hm => h (collapseGo_mem l false '\n' hm)
  rw [nl3Go_of_no_nl _ hz]
  rw [headingSubGo_of_no_nl _ _ hz]
  rw [listSubGo_of_no_nl _ _ hz]
  rw [paraSubGo_of_no_nl _ _ hz]
  rw [trailingL_of_no_nl _ hz]

/-- C4 amended: the normalisation is idempotent on plain-text inputs (not
containing both < and >, so the external HTML conversion is skipped) that
contain no newline; on such inputs it is space collapsing plus stripping,
and both are stable under a second application. -/
theorem markdown_normalizer_idempotent_plain_single_line
    (markdownify : String → String) (x : String)
    (hplain : ¬(pyIn "<" x = true ∧ pyIn ">" x = true))
    (hline : ¬ '\n' ∈ x.data) :
    clean_content markdownify (clean_content markdownify x) =
      clean_content markdownify x := by
  by_cases hx : x = ""
  · rw [hx]
    simp [clean_content]
  · have hbr : (pyIn "<" x && pyIn ">" x) = false := by
      cases h1 : pyIn "<" x with
      | false => simp
      | true =>
        cases h2 : pyIn ">" x with
        | false => simp
        | true => exact absurd ⟨h1, h2⟩ hplain
    have hcx : clean_content markdownify x =
        String.mk (stripL (collapseGo false x.data)) := by
      unfold clean_content
      rw [if_neg hx, hbr]
      simp only [Bool.false_eq_true, if_false]
      rw [clean_content_L_of_no_nl x.data hline]
    rw [hcx]
    have hysub : ∀ c, c ∈ stripL (collapseGo false x.data) → c ∈ x.data :=
      fun c hc => collapseGo_mem _ _ _ (stripL_mem _ _ hc)
    have hynl : ¬ '\n' ∈ stripL (collapseGo false x.data) :=
      fun hm => hline (hysub _ hm)
    by_cases hy : String.mk (stripL (collapseGo false x.data)) = ""
    · rw [hy]
      simp [clean_content]
    · have hybr : (pyIn "<" (String.mk (stripL (collapseGo false x.data))) &&
          pyIn ">" (String.mk (stripL (collapseGo false x.data)))) = false := by
        cases h1 : pyIn "<" (String.mk (stripL (collapseGo false x.data))) with
        | false => simp
        | true =>
          cases h2 : pyIn ">" (String.mk (stripL (collapseGo false x.data))) with
          | false => simp
          | true =>
            apply absurd _ hplain
            constructor
            · exact (pyIn_lt_iff x).2 (hysub '<'
                ((pyIn_lt_iff (String.mk (stripL (collapseGo false x.data)))).1 h1))
            · exact (pyIn_gt_iff x).2 (hysub '>'
                ((pyIn_gt_iff (String.mk (stripL (collapseGo false x.data)))).1 h2))
      unfold clean_content
      rw [if_neg hy, hybr]
      simp only [Bool.false_eq_true, if_false]
      show String.mk (clean_content_L (stripL (collapseGo false x.data))) =
        String.mk (stripL (collapseGo false x.data))
      rw [clean_content_L_of_no_nl _ hynl]
      have hychain : List.Chain' noTwoSpaces (stripL (collapseGo false x.data)) :=
        stripL_chain _ (collapseGo_chain x.data false).1
      rw [collapseGo_eq_self _ false hychain (fun hf => absurd hf (by simp))]
      rw [stripL_idem]

/-- Witness for the amended C4 idempotence at a concrete plain single-line
input with repeated spaces. -/
theorem markdown_normalizer_idempotent_witness :
    ¬(pyIn "<" "Hello   scraped  world" = true ∧
      pyIn ">" "Hello   scraped  world" = true) ∧
    ¬ '\n' ∈ ("Hello   scraped  world" : String).data ∧
    clean_content (fun s => s)
        (clean_content (fun s => s) "Hello   scraped  world") =
      clean_content (fun s => s) "Hello   scraped  world" :=
  ⟨by decide, by decide,
    markdown_normalizer_idempotent_plain_single_line (fun s => s)
      "Hello   scraped  world" (by decide) (by decide)⟩

/-! ## Crawl scheduler (src/scrapers/web.py WebScraper.scrape_async and
     WebScraper._scrape_sync)

Fetching and HTML parsing are external: a page oracle maps a URL to the
data a successful fetch yields (extracted title, content, author, and the
same-domain links find_links returns, in a fixed deterministic order), or
none for a failed fetch, exactly the deterministic-input assumption of the
spec.  should_scrape_url (same-domain plus skip-pattern test) is abstracted
as a predicate because both variants call the identical method.  The
visited set is a list whose insertions are membership-guarded, as in the
source, so its length is the Python set's cardinality. -/

/-- The ContentItem dataclass of src/scrapers/base.py. -/
structure ContentItem where
  title : String
  content : String
  content_type : String
  source_url : String
  author : String
  user_id : String
deriving DecidableEq

/-- BaseScraper.determine_content_type from src/scrapers/base.py (the
title parameter is received but never consulted by the source body). -/
def determine_content_type (url : String) (_title : String) : String :=
  if ["/blog", "/post", "/article"].any (fun t => pyIn t (pyLower url)) then
    "blog"
  else if ["/guide", "/company", "/hiring"].any (fun t => pyIn t (pyLower url)) then
    "company_guide"
  else if ["/interview", "/learn"].any (fun t => pyIn t (pyLower url)) then
    "interview_guide"
  else if [".pdf", "/book"].any (fun t => pyIn t (pyLower url)) then
    "book"
  else "blog"

/-- What one successful fetch provides to the scheduler. -/
structure PageData where
  title : String
  content : String
  author : String
  links : List String

/-- The ContentItem both variants build for a page with meaningful
content (user_id keeps the dataclass default). -/
def mkItem (url : String) (pd : PageData) : ContentItem :=
  { title := pd.title, content := pd.content,
    content_type := determine_content_type url pd.title,
    source_url := url, author := pd.author, user_id := "" }

/-- The link-enqueueing loop shared by both variants: append each link that
is not visited, not already queued, and passes should_scrape_url. -/
def appendLinks (visited : List String) (ss : String → Bool)
    (queue : List String) : List String → List String
  | [] => queue
  | l :: ls =>
    appendLinks visited ss
      (if ¬ l ∈ visited ∧ ¬ l ∈ queue ∧ ss l then queue ++ [l] else queue) ls

/-- The result-processing loop of one async batch: visitedA is the visited
set after the whole batch was claimed; a failed fetch contributes nothing;
a successful one emits an item when the content exceeds 100 characters and
enqueues its links when the budget is not yet exhausted. -/
def processBatch (oracle : String → Option PageData) (ss : String → Bool)
    (mp : Nat) (visitedA : List String) :
    List String → List String → List ContentItem →
      List String × List ContentItem
  | [], queue, items => (queue, items)
  | url :: urls, queue, items =>
    match oracle url with
    | none => processBatch oracle ss mp visitedA urls queue items
    | some pd =>
      processBatch oracle ss mp visitedA urls
        (if visitedA.length < mp then appendLinks visitedA ss queue pd.links
         else queue)
        (items ++ if 100 < pd.content.length then [mkItem url pd] else [])

/-- The batch size of scrape_async:
min(max_concurrent, len(urls_to_scrape), max_pages - len(visited)). -/
def batchSize (mc mp : Nat) (visited queue : List String) : Nat :=
  min mc (min queue.length (mp - visited.length))

/-- The URLs of the current batch that are not yet visited (scrape_async
filters the batch against the visited set before claiming it). -/
def newBatch (mc mp : Nat) (visited queue : List String) : List String :=
  (queue.take (batchSize mc mp visited queue)).filter
    (fun u => decide (¬ u ∈ visited))

/-- The while-loop of WebScraper.scrape_async.  The loop runs while the
queue is non-empty and the budget is not exhausted; each iteration pops a
batch, claims its unvisited URLs (marking them visited before any fetch),
skips the batch when all were already visited, and otherwise processes all
fetch results.  The source loops forever when max_concurrent = 0 (the
batch is empty and nothing changes), so the model carries 0 < mc. -/
def scrapeAsyncLoop (oracle : String → Option PageData) (ss : String → Bool)
    (mp mc : Nat) (hmc : 0 < mc) (visited queue : List String)
    (items : List ContentItem) : List String × List ContentItem :=
  if hb : mp ≤ visited.length then (visited, items)
  else if hq : queue = [] then (visited, items)
  else if hnew : newBatch mc mp visited queue = [] then
    scrapeAsyncLoop oracle ss mp mc hmc visited
      (queue.drop (batchSize mc mp visited queue)) items
  else
    scrapeAsyncLoop oracle ss mp mc hmc (visited ++ newBatch mc mp visited queue)
      (processBatch oracle ss mp (visited ++ newBatch mc mp visited queue)
        (newBatch mc mp visited queue)
        (queue.drop (batchSize mc mp visited queue)) items).1
      (processBatch oracle ss mp (visited ++ newBatch mc mp visited queue)
        (newBatch mc mp visited queue)
        (queue.drop (batchSize mc mp visited queue)) items).2
termination_by (mp - visited.length, queue.length)
decreasing_by
  · apply Prod.Lex.right
    have hq' : 0 < queue.length := List.length_pos.2 hq
    have hbpos : 0 < batchSize mc mp visited queue := by
      unfold batchSize
      exact Nat.lt_min.2 ⟨hmc, Nat.lt_min.2 ⟨hq', by omega⟩⟩
    rw [List.length_drop]
    omega
  · apply Prod.Lex.left
    have hnb : 0 < (newBatch mc mp visited queue).length :=
      List.length_pos.2 hnew
    rw [List.length_append]
    omega

/-- The while-loop of WebScraper._scrape_sync: pop one URL, skip it when
already visited, otherwise mark it visited, fetch, emit an item on
meaningful content, and enqueue links when the budget allows. -/
def scrapeSyncLoop (oracle : String → Option PageData) (ss : String → Bool)
    (mp : Nat) (visited queue : List String) (items : List ContentItem) :
    List String × List ContentItem :=
  match queue with
  | [] => (visited, items)
  | url :: rest =>
    if hb : mp ≤ visited.length then (visited, items)
    else if hv : url ∈ visited then scrapeSyncLoop oracle ss mp visited rest items
    else
      match oracle url with
      | none => scrapeSyncLoop oracle ss mp (visited ++ [url]) rest items
      | some pd =>
        scrapeSyncLoop oracle ss mp (visited ++ [url])
          (if (visited ++ [url]).length < mp then
            appendLinks (visited ++ [url]) ss rest pd.links
           else rest)
          (items ++ if 100 < pd.content.length then [mkItem url pd] else [])
termination_by (mp - visited.length, queue.length)
decreasing_by
  · apply Prod.Lex.right
    simp
  · apply Prod.Lex.left
    rw [List.length_append]
    simp only [List.length_singleton]
    omega
  · apply Prod.Lex.left
    rw [List.length_append]
    simp only [List.length_singleton]
    omega

/-- WebScraper.scrape_async on a seed URL: fresh instance state, frontier
initialised to the seed. -/
def scrape_async (oracle : String → Option PageData) (ss : String → Bool)
    (mp mc : Nat) (hmc : 0 < mc) (source : String) :
    List String × List ContentItem :=
  scrapeAsyncLoop oracle ss mp mc hmc [] [source] []

/-- WebScraper._scrape_sync on a seed URL: fresh instance state, frontier
initialised to the seed. -/
def scrape_sync (oracle : String → Option PageData) (ss : String → Bool)
    (mp : Nat) (source : String) : List String × List ContentItem :=
  scrapeSyncLoop oracle ss mp [] [source] []

/-! ## Theorems for C1 -/

/-- Loop invariant of scrape_async: the visited set never outgrows the
page budget, because each batch is clipped to the remaining budget. -/
theorem scrapeAsyncLoop_budget (oracle : String → Option PageData)
    (ss : String → Bool) (mp mc : Nat) (hmc : 0 < mc) :
    ∀ visited queue items, visited.length ≤ mp →
      (scrapeAsyncLoop oracle ss mp mc hmc visited queue items).1.length ≤ mp := by
  intro visited queue items
  induction visited, queue, items using scrapeAsyncLoop.induct oracle ss mp mc hmc with
  | case1 v q i hb =>
    intro h
    rw [scrapeAsyncLoop]
    simp only [dif_pos hb]
    exact h
  | case2 v i hb =>
    intro h
    rw [scrapeAsyncLoop]
    simp only [dif_neg hb, dif_pos rfl]
    exact h
  | case3 v q i hb hq hnew ih =>
    intro h
    rw [scrapeAsyncLoop]
    simp only [dif_neg hb, dif_neg hq, dif_pos hnew]
    exact ih h
  | case4 v q i hb hq hnew ih =>
    intro h
    rw [scrapeAsyncLoop]
    simp only [dif_neg hb, dif_neg hq, dif_neg hnew]
    apply ih
    have h1 : (newBatch mc mp v q).length ≤ batchSize mc mp v q := by
      unfold newBatch
      calc ((q.take (batchSize mc mp v q)).filter
            (fun u => decide (¬ u ∈ v))).length
          ≤ (q.take (batchSize mc mp v q)).length := List.length_filter_le _ _
        _ ≤ batchSize mc mp v q := by
            rw [List.length_take]
            exact min_le_left _ _
    have h2 : batchSize mc mp v q ≤ mp - v.length := by
      unfold batchSize
      exact le_trans (min_le_right _ _) (min_le_right _ _)
    rw [List.length_append]
    omega

/-- Loop invariant of _scrape_sync: the visited set never outgrows the
page budget, because the loop stops before marking once the budget is
reached. -/
theorem scrapeSyncLoop_budget (oracle : String → Option PageData)
    (ss : String → Bool) (mp : Nat) :
    ∀ visited queue items, visited.length ≤ mp →
      (scrapeSyncLoop oracle ss mp visited queue items).1.length ≤ mp := by
  intro visited queue items
  induction visited, queue, items using scrapeSyncLoop.induct oracle ss mp with
  | case1 v i =>
    intro h
    simp only [scrapeSyncLoop]
    exact h
  | case2 v i url rest hb =>
    intro h
    simp only [scrapeSyncLoop, dif_pos hb]
    exact h
  | case3 v i url rest hb hv ih =>
    intro h
    simp only [scrapeSyncLoop, dif_neg hb, dif_pos hv]
    exact ih h
  | case4 v i url rest hb hv hor ih =>
    intro h
    simp only [scrapeSyncLoop, dif_neg hb, dif_neg hv, hor]
    apply ih
    rw [List.length_append]
    simp only [List.length_singleton]
    omega
  | case5 v i url rest hb hv pd hor ih =>
    intro h
    simp only [scrapeSyncLoop, dif_neg hb, dif_neg hv, hor]
    apply ih
    rw [List.length_append]
    simp only [List.length_singleton]
    omega

/-- C1: in both crawl variants, from any loop state within budget — in
particular at every point of the loop and from the initial state of an
invocation on a seed URL — the number of visited URLs never exceeds
max_pages. -/
theorem crawl_scheduler_respects_page_budget
    (oracle : String → Option PageData) (ss : String → Bool) (mp mc : Nat)
    (hmc : 0 < mc) (visited queue : List String) (items : List ContentItem)
    (source : String) (h : visited.length ≤ mp) :
    (scrapeAsyncLoop oracle ss mp mc hmc visited queue items).1.length ≤ mp ∧
    (scrapeSyncLoop oracle ss mp visited queue items).1.length ≤ mp ∧
    (scrape_async oracle ss mp mc hmc source).1.length ≤ mp ∧
    (scrape_sync oracle ss mp source).1.length ≤ mp :=
  ⟨scrapeAsyncLoop_budget oracle ss mp mc hmc visited queue items h,
   scrapeSyncLoop_budget oracle ss mp visited queue items h,
   scrapeAsyncLoop_budget oracle ss mp mc hmc [] [source] [] (by simp),
   scrapeSyncLoop_budget oracle ss mp [] [source] [] (by simp)⟩

/-- Witness for C1 at a concrete configuration. -/
theorem crawl_scheduler_respects_page_budget_witness :
    (scrapeAsyncLoop (fun _ => none) (fun _ => true) 2 3 (by decide)
        [] ["https://e.com"] []).1.length ≤ 2 ∧
    (scrapeSyncLoop (fun _ => none) (fun _ => true) 2
        [] ["https://e.com"] []).1.length ≤ 2 ∧
    (scrape_async (fun _ => none) (fun _ => true) 2 3 (by decide)
        "https://e.com").1.length ≤ 2 ∧
    (scrape_sync (fun _ => none) (fun _ => true) 2 "https://e.com").1.length ≤ 2 :=
  crawl_scheduler_respects_page_budget (fun _ => none) (fun _ => true) 2 3
    (by decide) [] ["https://e.com"] [] "https://e.com" (by decide)

/-! ## Theorems for C2 -/

/-- Enqueueing links preserves queue distinctness: a link is appended only
when not already queued. -/
theorem appendLinks_nodup (ss : String → Bool) :
    ∀ links vis q, q.Nodup → (appendLinks vis ss q links).Nodup := by
  intro links
  induction links with
  | nil => intro vis q h; exact h
  | cons l ls ih =>
    intro vis q h
    unfold appendLinks
    by_cases hc : ¬ l ∈ vis ∧ ¬ l ∈ q ∧ ss l
    · rw [if_pos hc]
      apply ih
      apply List.Nodup.append h (List.nodup_singleton l)
      intro x hx1 hx2
      rw [List.mem_singleton] at hx2
      rw [hx2] at hx1
      exact hc.2.1 hx1
    · rw [if_neg hc]
      exact ih vis q h

/-- Every queued URL after link enqueueing was already queued or is not
visited. -/
theorem appendLinks_mem (ss : String → Bool) :
    ∀ links vis q x, x ∈ appendLinks vis ss q links → x ∈ q ∨ ¬ x ∈ vis := by
  intro links
  induction links with
  | nil => intro vis q x hx; exact Or.inl hx
  | cons l ls ih =>
    intro vis q x hx
    unfold appendLinks at hx
    by_cases hc : ¬ l ∈ vis ∧ ¬ l ∈ q ∧ ss l
    · rw [if_pos hc] at hx
      rcases ih vis (q ++ [l]) x hx with hq | hv
      · rcases List.mem_append.1 hq with h1 | h1
        · exact Or.inl h1
        · rw [List.mem_singleton] at h1
          rw [h1]
          exact Or.inr hc.1
      · exact Or.inr hv
    · rw [if_neg hc] at hx
      exact ih vis q x hx

/-- Batch processing preserves queue distinctness. -/
theorem processBatch_queue_nodup (oracle : String → Option PageData)
    (ss : String → Bool) (mp : Nat) (V : List String) :
    ∀ urls q items, q.Nodup →
      (processBatch oracle ss mp V urls q items).1.Nodup := by
  intro urls
  induction urls with
  | nil => intro q items h; exact h
  | cons url urls ih =>
    intro q items h
    unfold processBatch
    cases horacle : oracle url with
    | none => exact ih q items h
    | some pd =>
      apply ih
      by_cases hm : V.length < mp
      · rw [if_pos hm]
        exact appendLinks_nodup ss pd.links V q h
      · rw [if_neg hm]
        exact h

/-- Every URL queued after batch processing was already queued or is not
in the claimed visited set. -/
theorem processBatch_queue_mem (oracle : String → Option PageData)
    (ss : String → Bool) (mp : Nat) (V : List String) :
    ∀ urls q items x, x ∈ (processBatch oracle ss mp V urls q items).1 →
      x ∈ q ∨ ¬ x ∈ V := by
  intro urls
  induction urls with
  | nil => intro q items x hx; exact Or.inl hx
  | cons url urls ih =>
    intro q items x hx
    unfold processBatch at hx
    cases horacle : oracle url with
    | none =>
      rw [horacle] at hx
      exact ih q _ x hx
    | some pd =>
      rw [horacle] at hx
      replace hx : x ∈ (processBatch oracle ss mp V urls
          (if V.length < mp then appendLinks V ss q pd.links else q)
          (items ++ if 100 < pd.content.length then [mkItem url pd] else [])).1 :=
        hx
      by_cases hm : V.length < mp
      · rw [if_pos hm] at hx
        rcases ih _ _ x hx with hq | hv
        · exact appendLinks_mem ss pd.links V q x hq
        · exact Or.inr hv
      · rw [if_neg hm] at hx
        exact ih _ _ x hx

/-- The claimed batch is made of distinct URLs not yet visited. -/
theorem newBatch_nodup (mc mp : Nat) (visited queue : List String)
    (hq : queue.Nodup) : (newBatch mc mp visited queue).Nodup :=
  List.Nodup.filter _ (List.Nodup.sublist (List.take_sublist _ _) hq)

/-- Loop invariant of scrape_async: distinct visited URLs stay distinct,
because a batch is filtered against the visited set before being claimed. -/
theorem scrapeAsyncLoop_nodup (oracle : String → Option PageData)
    (ss : String → Bool) (mp mc : Nat) (hmc : 0 < mc) :
    ∀ visited queue items, visited.Nodup → queue.Nodup →
      (∀ u ∈ queue, ¬ u ∈ visited) →
      (scrapeAsyncLoop oracle ss mp mc hmc visited queue items).1.Nodup := by
  intro visited queue items
  induction visited, queue, items using scrapeAsyncLoop.induct oracle ss mp mc hmc with
  | case1 v q i hb =>
    intro hv _hq _hd
    rw [scrapeAsyncLoop]
    simp only [dif_pos hb]
    exact hv
  | case2 v i hb =>
    intro hv _hq _hd
    rw [scrapeAsyncLoop]
    simp only [dif_neg hb, dif_pos rfl]
    exact hv
  | case3 v q i hb hq hnew ih =>
    intro hv hqn hd
    rw [scrapeAsyncLoop]
    simp only [dif_neg hb, dif_neg hq, dif_pos hnew]
    apply ih hv (List.Nodup.sublist (List.drop_sublist _ _) hqn)
    intro u hu
    exact hd u (List.mem_of_mem_drop hu)
  | case4 v q i hb hq hnew ih =>
    intro hv hqn hd
    rw [scrapeAsyncLoop]
    simp only [dif_neg hb, dif_neg hq, dif_neg hnew]
    have hbatch_sub : ∀ u ∈ newBatch mc mp v q, u ∈ q.take (batchSize mc mp v q) :=
      fun u hu => List.mem_of_mem_filter hu
    have hbatch_not_v : ∀ u ∈ newBatch mc mp v q, ¬ u ∈ v := by
      intro u hu
      have := List.of_mem_filter hu
      simpa using this
    have hsplit : (q.take (batchSize mc mp v q)).Disjoint
        (q.drop (batchSize mc mp v q)) := by
      have hqeq : q.take (batchSize mc mp v q) ++ q.drop (batchSize mc mp v q) = q :=
        List.take_append_drop _ _
      have := hqn
      rw [← hqeq, List.nodup_append] at this
      exact this.2.2
    have hv' : (v ++ newBatch mc mp v q).Nodup := by
      apply List.Nodup.append hv (newBatch_nodup mc mp v q hqn)
      intro x hx1 hx2
      exact hbatch_not_v x hx2 hx1
    apply ih hv'
    · exact processBatch_queue_nodup oracle ss mp _ _ _ _
        (List.Nodup.sublist (List.drop_sublist _ _) hqn)
    · intro u hu
      rcases processBatch_queue_mem oracle ss mp _ _ _ _ u hu with hq1 | hv1
      · intro hmem
        rcases List.mem_append.1 hmem with h1 | h1
        · exact hd u (List.mem_of_mem_drop hq1) h1
        · exact hsplit (hbatch_sub u h1) hq1
      · exact hv1

/-- Loop invariant of _scrape_sync: distinct visited URLs stay distinct,
because a popped URL already visited is skipped before marking. -/
theorem scrapeSyncLoop_nodup (oracle : String → Option PageData)
    (ss : String → Bool) (mp : Nat) :
    ∀ visited queue items, visited.Nodup → queue.Nodup →
      (∀ u ∈ queue, ¬ u ∈ visited) →
      (scrapeSyncLoop oracle ss mp visited queue items).1.Nodup := by
  intro visited queue items
  induction visited, queue, items using scrapeSyncLoop.induct oracle ss mp with
  | case1 v i =>
    intro hv _hq _hd
    simp only [scrapeSyncLoop]
    exact hv
  | case2 v i url rest hb =>
    intro hv _hq _hd
    simp only [scrapeSyncLoop, dif_pos hb]
    exact hv
  | case3 v i url rest hb hvm ih =>
    intro hv hq hd
    simp only [scrapeSyncLoop, dif_neg hb, dif_pos hvm]
    exact ih hv (List.Nodup.of_cons hq) (fun u hu => hd u (List.mem_cons_of_mem url hu))
  | case4 v i url rest hb hvm hor ih =>
    intro hv hq hd
    simp only [scrapeSyncLoop, dif_neg hb, dif_neg hvm, hor]
    have hv' : (v ++ [url]).Nodup := by
      apply List.Nodup.append hv (List.nodup_singleton url)
      intro x hx1 hx2
      rw [List.mem_singleton] at hx2
      rw [hx2] at hx1
      exact hvm hx1
    apply ih hv' (List.Nodup.of_cons hq)
    intro u hu hmem
    rcases List.mem_append.1 hmem with h1 | h1
    · exact hd u (List.mem_cons_of_mem url hu) h1
    · rw [List.mem_singleton] at h1
      rw [h1] at hu
      exact (List.nodup_cons.1 hq).1 hu
  | case5 v i url rest hb hvm pd hor ih =>
    intro hv hq hd
    simp only [scrapeSyncLoop, dif_neg hb, dif_neg hvm, hor]
    have hv' : (v ++ [url]).Nodup := by
      apply List.Nodup.append hv (List.nodup_singleton url)
      intro x hx1 hx2
      rw [List.mem_singleton] at hx2
      rw [hx2] at hx1
      exact hvm hx1
    have hrest_d : ∀ u ∈ rest, ¬ u ∈ v ++ [url] := by
      intro u hu hmem
      rcases List.mem_append.1 hmem with h1 | h1
      · exact hd u (List.mem_cons_of_mem url hu) h1
      · rw [List.mem_singleton] at h1
        rw [h1] at hu
        exact (List.nodup_cons.1 hq).1 hu
    apply ih hv'
    · split
      · exact appendLinks_nodup ss pd.links _ _ (List.Nodup.of_cons hq)
      · exact List.Nodup.of_cons hq
    · split
      · intro u hu
        rcases appendLinks_mem ss pd.links _ _ u hu with h1 | h1
        · exact hrest_d u h1
        · exact h1
      · exact hrest_d

/-- C2: in both crawl variants, one invocation never visits a URL twice:
URLs are claimed (added to visited) before their fetch is dispatched, and
a popped URL already visited is skipped, so the visited sequence at
completion has no duplicates. -/
theorem crawl_scheduler_never_revisits (oracle : String → Option PageData)
    (ss : String → Bool) (mp mc : Nat) (hmc : 0 < mc) (source : String) :
    (scrape_async oracle ss mp mc hmc source).1.Nodup ∧
    (scrape_sync oracle ss mp source).1.Nodup :=
  ⟨scrapeAsyncLoop_nodup oracle ss mp mc hmc [] [source] []
      (by simp) (by simp) (by simp),
   scrapeSyncLoop_nodup oracle ss mp [] [source] []
      (by simp) (by simp) (by simp)⟩

/-- Witness for C2 at a concrete configuration. -/
theorem crawl_scheduler_never_revisits_witness :
    (scrape_async (fun _ => none) (fun _ => true) 2 3 (by decide)
        "https://e.com").1.Nodup ∧
    (scrape_sync (fun _ => none) (fun _ => true) 2 "https://e.com").1.Nodup :=
  crawl_scheduler_never_revisits (fun _ => none) (fun _ => true) 2 3
    (by decide) "https://e.com"

/-! ## Theorems for C3 -/

/-- Once the budget is exhausted the sync loop returns immediately,
whatever the queue holds. -/
theorem scrapeSyncLoop_stop (oracle : String → Option PageData)
    (ss : String → Bool) (mp : Nat) (v q : List String)
    (i : List ContentItem) (h : mp ≤ v.length) :
    scrapeSyncLoop oracle ss mp v q i = (v, i) := by
  cases q with
  | nil => simp [scrapeSyncLoop]
  | cons u rest => simp [scrapeSyncLoop, dif_pos h]

/-- One sync step on an unvisited URL whose fetch fails. -/
theorem syncLoop_cons_none (oracle : String → Option PageData)
    (ss : String → Bool) (mp : Nat) (v : List String) (u : String)
    (rest : List String) (items : List ContentItem)
    (hb : ¬ mp ≤ v.length) (hv : ¬ u ∈ v) (hor : oracle u = none) :
    scrapeSyncLoop oracle ss mp v (u :: rest) items =
      scrapeSyncLoop oracle ss mp (v ++ [u]) rest items := by
  simp only [scrapeSyncLoop, dif_neg hb, dif_neg hv, hor]

/-- One sync step on an unvisited URL whose fetch succeeds. -/
theorem syncLoop_cons_some (oracle : String → Option PageData)
    (ss : String → Bool) (mp : Nat) (v : List String) (u : String)
    (rest : List String) (items : List ContentItem) (pd : PageData)
    (hb : ¬ mp ≤ v.length) (hv : ¬ u ∈ v) (hor : oracle u = some pd) :
    scrapeSyncLoop oracle ss mp v (u :: rest) items =
      scrapeSyncLoop oracle ss mp (v ++ [u])
        (if (v ++ [u]).length < mp then appendLinks (v ++ [u]) ss rest pd.links
         else rest)
        (items ++ if 100 < pd.content.length then [mkItem u pd] else []) := by
  simp only [scrapeSyncLoop, dif_neg hb, dif_neg hv, hor]

/-- One batch-processing step on a URL whose fetch fails. -/
theorem processBatch_cons_none (oracle : String → Option PageData)
    (ss : String → Bool) (mp : Nat) (V : List String) (url : String)
    (urls q : List String) (items : List ContentItem)
    (hor : oracle url = none) :
    processBatch oracle ss mp V (url :: urls) q items =
      processBatch oracle ss mp V urls q items := by
  simp only [processBatch, hor]

/-- One batch-processing step on a URL whose fetch succeeds. -/
theorem processBatch_cons_some (oracle : String → Option PageData)
    (ss : String → Bool) (mp : Nat) (V : List String) (url : String)
    (urls q : List String) (items : List ContentItem) (pd : PageData)
    (hor : oracle url = some pd) :
    processBatch oracle ss mp V (url :: urls) q items =
      processBatch oracle ss mp V urls
        (if V.length < mp then appendLinks V ss q pd.links else q)
        (items ++ if 100 < pd.content.length then [mkItem url pd] else []) := by
  simp only [processBatch, hor]

/-- The emitted items of batch processing do not depend on the queue. -/
theorem processBatch_items_indep (oracle : String → Option PageData)
    (ss : String → Bool) (mp : Nat) (V : List String) :
    ∀ urls q1 q2 items,
      (processBatch oracle ss mp V urls q1 items).2 =
        (processBatch oracle ss mp V urls q2 items).2 := by
  intro urls
  induction urls with
  | nil => intro q1 q2 items; rfl
  | cons url urls ih =>
    intro q1 q2 items
    cases horacle : oracle url with
    | none =>
      rw [processBatch_cons_none oracle ss mp V url urls q1 items horacle,
        processBatch_cons_none oracle ss mp V url urls q2 items horacle]
      exact ih q1 q2 items
    | some pd =>
      rw [processBatch_cons_some oracle ss mp V url urls q1 items pd horacle,
        processBatch_cons_some oracle ss mp V url urls q2 items pd horacle]
      exact ih _ _ _

set_option maxHeartbeats 1000000 in
/-- Appending links against a queue with a fixed-front segment: when the
exclusion sets agree (visited plus queued on either side), the links land
behind the fixed segment, which passes through untouched. -/
theorem appendLinks_split (ss : String → Bool) :
    ∀ (links vis1 vis2 mid q : List String),
      (∀ l : String, (l ∈ vis1 ∨ l ∈ mid ++ q) ↔ (l ∈ vis2 ∨ l ∈ q)) →
      appendLinks vis1 ss (mid ++ q) links =
        mid ++ appendLinks vis2 ss q links := by
  intro links
  induction links with
  | nil => intro vis1 vis2 mid q _h; rfl
  | cons l ls ih =>
    intro vis1 vis2 mid q h
    have hl := h l
    have hiff : (¬ l ∈ vis1 ∧ ¬ l ∈ mid ++ q ∧ ss l) ↔
        (¬ l ∈ vis2 ∧ ¬ l ∈ q ∧ ss l) := by
      constructor
      · rintro ⟨ha, hb, hc⟩
        exact ⟨fun hx => (hl.2 (Or.inl hx)).elim ha hb,
          fun hx => (hl.2 (Or.inr hx)).elim ha hb, hc⟩
      · rintro ⟨ha, hb, hc⟩
        exact ⟨fun hx => (hl.1 (Or.inl hx)).elim ha hb,
          fun hx => (hl.1 (Or.inr hx)).elim ha hb, hc⟩
    unfold appendLinks
    by_cases hc : ¬ l ∈ vis2 ∧ ¬ l ∈ q ∧ ss l
    · rw [if_pos (hiff.2 hc), if_pos hc, List.append_assoc]
      apply ih
      intro l'
      have hl' := h l'
      simp only [List.mem_append, List.mem_singleton] at hl' ⊢
      tauto
    · rw [if_neg (fun hcc => hc (hiff.1 hcc)), if_neg hc]
      exact ih vis1 vis2 mid q h

/-- The claimed batch never exceeds the batch size. -/
theorem newBatch_length_le (mc mp : Nat) (v q : List String) :
    (newBatch mc mp v q).length ≤ batchSize mc mp v q := by
  unfold newBatch
  calc ((q.take (batchSize mc mp v q)).filter
        (fun u => decide (¬ u ∈ v))).length
      ≤ (q.take (batchSize mc mp v q)).length := List.length_filter_le _ _
    _ ≤ batchSize mc mp v q := by
        rw [List.length_take]
        exact min_le_left _ _

set_option maxHeartbeats 1000000 in
/-- Batch simulation: running the sync loop over a pending batch of
distinct, unvisited, unqueued URLs reaches exactly the state async batch
processing computes (with the whole batch claimed up front); when the
batch fills the budget exactly, both collapse to the same final answer
even though the sync side may have enqueued a few more links. -/
theorem scrapeSyncLoop_batch (oracle : String → Option PageData)
    (ss : String → Bool) (mp : Nat) :
    ∀ pending visited q items,
      pending.Nodup → (∀ u ∈ pending, ¬ u ∈ visited) →
      (∀ u ∈ pending, ¬ u ∈ q) →
      visited.length + pending.length ≤ mp →
      scrapeSyncLoop oracle ss mp visited (pending ++ q) items =
        if mp ≤ (visited ++ pending).length then
          ((visited ++ pending),
            (processBatch oracle ss mp (visited ++ pending) pending q items).2)
        else
          scrapeSyncLoop oracle ss mp (visited ++ pending)
            (processBatch oracle ss mp (visited ++ pending) pending q items).1
            (processBatch oracle ss mp (visited ++ pending) pending q items).2 := by
  intro pending
  induction pending with
  | nil =>
    intro visited q items _h1 _h2 _h3 _hlen
    simp only [List.nil_append, List.append_nil, processBatch]
    by_cases hmp : mp ≤ visited.length
    · rw [if_pos hmp]
      exact scrapeSyncLoop_stop oracle ss mp visited q items hmp
    · rw [if_neg hmp]
  | cons u rest ih =>
    intro visited q items h1 h2 h3 hlen
    have hu_nv : ¬ u ∈ visited := h2 u (List.mem_cons_self _ _)
    have hlt : ¬ mp ≤ visited.length := by
      simp only [List.length_cons] at hlen
      omega
    have hrest_nodup : rest.Nodup := List.Nodup.of_cons h1
    have hu_not_rest : ¬ u ∈ rest := (List.nodup_cons.1 h1).1
    have hVassoc : visited ++ u :: rest = (visited ++ [u]) ++ rest := by simp
    have hrest_nv1 : ∀ x ∈ rest, ¬ x ∈ visited ++ [u] := by
      intro x hx hmem
      rcases List.mem_append.1 hmem with hm | hm
      · exact h2 x (List.mem_cons_of_mem u hx) hm
      · rw [List.mem_singleton] at hm
        rw [hm] at hx
        exact hu_not_rest hx
    rw [List.cons_append]
    cases horacle : oracle u with
    | none =>
      rw [syncLoop_cons_none oracle ss mp visited u (rest ++ q) items hlt
        hu_nv horacle]
      rw [processBatch_cons_none oracle ss mp (visited ++ u :: rest) u rest q
        items horacle]
      rw [ih (visited ++ [u]) q items hrest_nodup hrest_nv1
        (fun x hx => h3 x (List.mem_cons_of_mem u hx))
        (by simp only [List.length_append, List.length_singleton, List.length_nil,
          List.length_cons] at hlen ⊢; omega)]
      rw [hVassoc]
    | some pd =>
      rw [syncLoop_cons_some oracle ss mp visited u (rest ++ q) items pd hlt
        hu_nv horacle]
      rw [processBatch_cons_some oracle ss mp (visited ++ u :: rest) u rest q
        items pd horacle]
      by_cases hVlt : (visited ++ u :: rest).length < mp
      · have hv1lt : (visited ++ [u]).length < mp := by
          simp only [List.length_append, List.length_cons,
            List.length_singleton, List.length_nil] at hVlt ⊢
          omega
        rw [if_pos hv1lt, if_pos hVlt]
        rw [appendLinks_split ss pd.links (visited ++ [u])
          (visited ++ u :: rest) rest q
          (by
            intro l'
            simp only [List.mem_append, List.mem_singleton, List.mem_cons]
            tauto)]
        rw [ih (visited ++ [u])
          (appendLinks (visited ++ u :: rest) ss q pd.links)
          (items ++ if 100 < pd.content.length then [mkItem u pd] else [])
          hrest_nodup hrest_nv1
          (by
            intro x hx hmem
            rcases appendLinks_mem ss pd.links _ q x hmem with hq1 | hv1
            · exact h3 x (List.mem_cons_of_mem u hx) hq1
            · exact hv1 (List.mem_append_right _ (List.mem_cons_of_mem u hx)))
          (by simp only [List.length_append, List.length_singleton, List.length_nil,
            List.length_cons] at hlen ⊢; omega)]
        rw [hVassoc]
      · have hVge : mp ≤ (visited ++ u :: rest).length := not_lt.1 hVlt
        rw [if_neg hVlt, if_pos hVge]
        by_cases hv1lt : (visited ++ [u]).length < mp
        · rw [if_pos hv1lt]
          rw [appendLinks_split ss pd.links (visited ++ [u])
            (visited ++ u :: rest) rest q
            (by
              intro l'
              simp only [List.mem_append, List.mem_singleton, List.mem_cons]
              tauto)]
          rw [ih (visited ++ [u])
            (appendLinks (visited ++ u :: rest) ss q pd.links)
            (items ++ if 100 < pd.content.length then [mkItem u pd] else [])
            hrest_nodup hrest_nv1
            (by
              intro x hx hmem
              rcases appendLinks_mem ss pd.links _ q x hmem with hq1 | hv1
              · exact h3 x (List.mem_cons_of_mem u hx) hq1
              · exact hv1 (List.mem_append_right _ (List.mem_cons_of_mem u hx)))
            (by simp only [List.length_append, List.length_singleton, List.length_nil,
              List.length_cons] at hlen hVge ⊢; omega)]
          rw [if_pos (show mp ≤ ((visited ++ [u]) ++ rest).length by
            rw [← hVassoc]; exact hVge)]
          rw [← hVassoc]
          rw [processBatch_items_indep oracle ss mp (visited ++ u :: rest) rest
            (appendLinks (visited ++ u :: rest) ss q pd.links) q
            (items ++ if 100 < pd.content.length then [mkItem u pd] else [])]
        · rw [if_neg hv1lt]
          have hrest_nil : rest = [] := by
            have h1 : (visited ++ [u]).length = visited.length + 1 := by simp
            have h2 : ¬ visited.length + 1 < mp := by rw [← h1]; exact hv1lt
            simp only [List.length_cons] at hlen
            have : rest.length = 0 := by omega
            exact List.length_eq_zero.1 this
          subst hrest_nil
          simp only [List.nil_append]
          have hstop : mp ≤ (visited ++ [u]).length := not_lt.1 hv1lt
          rw [scrapeSyncLoop_stop oracle ss mp (visited ++ [u]) q
            (items ++ if 100 < pd.content.length then [mkItem u pd] else [])
            hstop]
          simp [processBatch]

/-- The async and sync crawl loops agree from any state whose queue is
duplicate-free and disjoint from the visited set. -/
theorem scrapeLoops_agree (oracle : String → Option PageData)
    (ss : String → Bool) (mp mc : Nat) (hmc : 0 < mc) :
    ∀ visited queue items, queue.Nodup → (∀ u ∈ queue, ¬ u ∈ visited) →
      scrapeAsyncLoop oracle ss mp mc hmc visited queue items =
        scrapeSyncLoop oracle ss mp visited queue items := by
  intro visited queue items
  induction visited, queue, items using scrapeAsyncLoop.induct oracle ss mp mc hmc with
  | case1 v q i hb =>
    intro _hqn _hd
    rw [scrapeAsyncLoop]
    simp only [dif_pos hb]
    exact (scrapeSyncLoop_stop oracle ss mp v q i hb).symm
  | case2 v i hb =>
    intro _hqn _hd
    rw [scrapeAsyncLoop]
    simp only [dif_neg hb, dif_pos rfl]
    simp [scrapeSyncLoop]
  | case3 v q i hb hq hnew ih =>
    intro _hqn hd
    exfalso
    obtain ⟨u, qt, hq'⟩ := List.exists_cons_of_ne_nil hq
    have hbs : 0 < batchSize mc mp v q := by
      unfold batchSize
      refine Nat.lt_min.2 ⟨hmc, Nat.lt_min.2 ⟨?_, ?_⟩⟩
      · rw [hq']
        simp
      · omega
    have hu_batch : u ∈ q.take (batchSize mc mp v q) := by
      obtain ⟨n, hn⟩ : ∃ n, batchSize mc mp v q = n + 1 :=
        ⟨batchSize mc mp v q - 1, by omega⟩
      rw [hn, hq', List.take_succ_cons]
      exact List.mem_cons_self _ _
    have hu_nb : u ∈ newBatch mc mp v q := by
      unfold newBatch
      refine List.mem_filter.2 ⟨hu_batch, ?_⟩
      simp only [decide_eq_true_eq]
      exact hd u (by rw [hq']; exact List.mem_cons_self _ _)
    rw [hnew] at hu_nb
    simp at hu_nb
  | case4 v q i hb hq hnew ih =>
    intro hqn hd
    rw [scrapeAsyncLoop]
    simp only [dif_neg hb, dif_neg hq, dif_neg hnew]
    have hbatch_eq : newBatch mc mp v q = q.take (batchSize mc mp v q) := by
      unfold newBatch
      apply List.filter_eq_self.2
      intro u hu
      simp only [decide_eq_true_eq]
      exact hd u (List.take_subset _ _ hu)
    have hq_split :
        q.take (batchSize mc mp v q) ++ q.drop (batchSize mc mp v q) = q :=
      List.take_append_drop _ _
    have hpend_nodup : (newBatch mc mp v q).Nodup := newBatch_nodup mc mp v q hqn
    have hpend_nv : ∀ u ∈ newBatch mc mp v q, ¬ u ∈ v := by
      intro u hu
      have := List.of_mem_filter hu
      simpa using this
    have hdisj : (q.take (batchSize mc mp v q)).Disjoint
        (q.drop (batchSize mc mp v q)) := by
      have h := hqn
      rw [← hq_split, List.nodup_append] at h
      exact h.2.2
    have hpend_nq : ∀ u ∈ newBatch mc mp v q,
        ¬ u ∈ q.drop (batchSize mc mp v q) := by
      intro u hu
      exact hdisj (hbatch_eq ▸ hu)
    have hlen : v.length + (newBatch mc mp v q).length ≤ mp := by
      have h1 := newBatch_length_le mc mp v q
      have h2 : batchSize mc mp v q ≤ mp - v.length := by
        unfold batchSize
        exact le_trans (min_le_right _ _) (min_le_right _ _)
      omega
    have hsync := scrapeSyncLoop_batch oracle ss mp (newBatch mc mp v q) v
      (q.drop (batchSize mc mp v q)) i hpend_nodup hpend_nv hpend_nq hlen
    rw [show newBatch mc mp v q ++ q.drop (batchSize mc mp v q) = q by
      rw [hbatch_eq]; exact hq_split] at hsync
    -- invariants at the next async state
    have hqd_nodup : (q.drop (batchSize mc mp v q)).Nodup :=
      List.Nodup.sublist (List.drop_sublist _ _) hqn
    have hnext_nodup : (processBatch oracle ss mp (v ++ newBatch mc mp v q)
        (newBatch mc mp v q) (q.drop (batchSize mc mp v q)) i).1.Nodup :=
      processBatch_queue_nodup oracle ss mp _ _ _ _ hqd_nodup
    have hnext_disj : ∀ u ∈ (processBatch oracle ss mp (v ++ newBatch mc mp v q)
        (newBatch mc mp v q) (q.drop (batchSize mc mp v q)) i).1,
        ¬ u ∈ v ++ newBatch mc mp v q := by
      intro u hu
      rcases processBatch_queue_mem oracle ss mp _ _ _ _ u hu with hq1 | hv1
      · intro hmem
        rcases List.mem_append.1 hmem with h1 | h1
        · exact hd u (List.mem_of_mem_drop hq1) h1
        · exact hdisj (hbatch_eq ▸ h1) hq1
      · exact hv1
    rw [ih hnext_nodup hnext_disj]
    rw [hsync]
    by_cases hfin : mp ≤ (v ++ newBatch mc mp v q).length
    · rw [if_pos hfin]
      exact scrapeSyncLoop_stop oracle ss mp _ _ _ hfin
    · rw [if_neg hfin]

/-- C3: on the same deterministic inputs (same page oracle, hence same
fetched pages and link order), the concurrent batch crawl and the
synchronous crawl return identical visited-URL sequences and identical
item sequences — in particular identical sets. -/
theorem sync_and_async_crawls_agree (oracle : String → Option PageData)
    (ss : String → Bool) (mp mc : Nat) (hmc : 0 < mc) (source : String) :
    scrape_async oracle ss mp mc hmc source = scrape_sync oracle ss mp source := by
  unfold scrape_async scrape_sync
  exact scrapeLoops_agree oracle ss mp mc hmc [] [source] [] (by simp) (by simp)

/-- Witness for C3 at a concrete configuration. -/
theorem sync_and_async_crawls_agree_witness :
    scrape_async (fun _ => none) (fun _ => true) 2 3 (by decide) "https://e.com" =
      scrape_sync (fun _ => none) (fun _ => true) 2 "https://e.com" :=
  sync_and_async_crawls_agree (fun _ => none) (fun _ => true) 2 3 (by decide)
    "https://e.com"
